import Mathlib

/-!
Verification of the graph/routing module (`Maps.py`) and its caller (`app.py`).

The Python code is shallowly embedded:
* Python floats are real-valued distances.  The modelled code only ever adds
  and compares them, so all definitions are parametric in a linearly ordered
  additive commutative monoid `R` of distances; `R = ℚ` gives the intended
  dense model, `R = ℤ` is used to evaluate concrete runs.  The geopy
  `geodesic(..).meters` function is an external library call and is abstracted
  as a parameter `gd : ℚ × ℚ → ℚ × ℚ → R` taking the two `(lat, long)` pairs.
* Python dicts are modelled as association lists with first-key lookup and
  update-in-place-or-append assignment (`lookupA` / `insertA`), which matches
  the insertion-order semantics of `dict`.
* Raised exceptions are modelled as explicit error results; Python's implicit
  `return None` at the end of `dijkstra` / `bfs` is a distinct outcome.
* The `while` loops of `dijkstra`, `bfs` and of path reconstruction are run on
  explicit fuel; exhausting fuel is a separate outcome that no theorem below
  treats as evidence.
-/

deriving instance DecidableEq for Except

namespace MapsModel

/-- `Location` from Maps.py (lines 8-12): a named coordinate pair.  The dynamic
`isinstance`/emptiness checks of `Location.check_invariants` are enforced by
typing here and are not part of any claim. -/
structure Location where
  name : String
  lat : ℚ
  long : ℚ
deriving DecidableEq

/-- Abstraction of `geodesic(coord_1, coord_2).meters` from geopy: a function of
the two `(lat, long)` pairs into the distance carrier `R`. -/
abbrev Geo (R : Type) := ℚ × ℚ → ℚ × ℚ → R

variable {R : Type} [LinearOrderedAddCommMonoid R]

/-- Python dict lookup `d[k]` / `d.get(k)`: first (unique) matching key. -/
def lookupA {α : Type} : List (String × α) → String → Option α
  | [], _ => none
  | (k, v) :: rest, key => if k = key then some v else lookupA rest key

/-- Python dict assignment `d[k] = v`: update in place if the key exists,
otherwise append (insertion order is preserved). -/
def insertA {α : Type} : List (String × α) → String → α → List (String × α)
  | [], k, v => [(k, v)]
  | (k', v') :: rest, k, v =>
    if k' = k then (k', v) :: rest else (k', v') :: insertA rest k v

/-- Python `d.keys()` in insertion order. -/
def keysA {α : Type} (l : List (String × α)) : List String := l.map Prod.fst

/-- `Map` from Maps.py (lines 30-34): `locations` maps a name to its
`Location`, `neighbours` maps a name to its adjacency list.  Note that the
class stores no per-edge cost anywhere. -/
structure Map where
  name : String
  locations : List (String × Location)
  neighbours : List (String × List String)
deriving DecidableEq

/-- `Map.calculate_distance` (lines 165-170): the geodesic distance between the
two locations' coordinates. -/
def calculate_distance (gd : Geo R) (l1 l2 : Location) : R :=
  gd (l1.lat, l1.long) (l2.lat, l2.long)

/-- `Map.add_location` (lines 122-126).  The `isinstance` guard is enforced by
typing (a non-`Location` argument is unrepresentable, in which case the Python
method silently does nothing). -/
def add_location (m : Map) (loc : Location) : Map :=
  { m with
    locations := insertA m.locations loc.name loc
    neighbours :=
      if (lookupA m.neighbours loc.name).isSome then m.neighbours
      else insertA m.neighbours loc.name [] }

/-- One direction of `Map.add_neighbours` (lines 144-145 resp. 146-147):
append `b` to `a`'s list unless already present.  The reads happen
sequentially in the source, which this helper preserves. -/
def addArrow (nbs : List (String × List String)) (a b : String) :
    List (String × List String) :=
  let la := (lookupA nbs a).getD []
  if b ∈ la then nbs else insertA nbs a (la ++ [b])

/-- `Map.add_neighbours` (lines 135-147).  Raises `ValueError` when either
endpoint has no adjacency entry; otherwise appends each name to the other's
list when absent.  The `isinstance` guard is enforced by typing. -/
def add_neighbours (m : Map) (l1 l2 : Location) : Except String Map :=
  if (lookupA m.neighbours l1.name).isNone || (lookupA m.neighbours l2.name).isNone then
    .error "Nonexistent location for adding neighbours"
  else
    .ok { m with
          neighbours := addArrow (addArrow m.neighbours l1.name l2.name) l2.name l1.name }

/-- `Map.check_invariants` (lines 107-120) as a boolean: `true` iff the Python
method raises no error.  The `isinstance(location, Location)` check is enforced
by typing. -/
def check_invariants (m : Map) : Bool :=
  m.locations.all (fun p => p.1 = p.2.name) &&
  m.neighbours.all (fun p =>
    decide (p.1 ∈ keysA m.locations) &&
    p.2.all (fun n2 =>
      decide (n2 ∈ keysA m.neighbours) &&
      match lookupA m.neighbours n2 with
      | some l => decide (p.1 ∈ l)
      | none => false))

/-- Membership of `v` in `neighbours[u]` (`[]` when `u` is not a key, matching
`self.neighbours.get(u, [])`-style reads). -/
def memNb (m : Map) (u v : String) : Prop :=
  v ∈ (lookupA m.neighbours u).getD []

instance (m : Map) (u v : String) : Decidable (memNb m u v) :=
  inferInstanceAs (Decidable (_ ∈ _))

/-! ## `Map.connect_nearest_loc` (lines 36-54)

The outer loop walks the (frozen) list of location names; for each it computes
the distances to all other locations, sorts them (Python's stable `sort` by the
distance component), and calls `add_neighbours` on the `k` nearest.  A raised
exception propagates out, leaving the mutations performed so far in place, so
the model threads the partially-updated map together with an optional error. -/

/-- Inner loop of `connect_nearest_loc` (lines 53-54): `add_neighbours` with
each of the selected nearest locations, stopping at the first raise. -/
def connectInner (loc : Location) : Map → List (R × String) → Map × Option String
  | m, [] => (m, none)
  | m, (_, other) :: rest =>
    match lookupA m.locations other with
    | none => (m, some "KeyError")
    | some oloc =>
      match add_neighbours m loc oloc with
      | .ok m' => connectInner loc m' rest
      | .error e => (m, some e)

/-- Outer loop of `connect_nearest_loc` (lines 39-54).  `locations` is never
mutated by `add_neighbours`, so reading the current map's `locations` matches
the source reading `map_obj.locations` each iteration. -/
def connectOuter (gd : Geo R) (k : ℕ) : Map → List String → Map × Option String
  | m, [] => (m, none)
  | m, name :: rest =>
    match lookupA m.locations name with
    | none => (m, some "KeyError")
    | some loc =>
      let dists := m.locations.filterMap (fun p =>
        if p.1 = name then none else some (calculate_distance gd loc p.2, p.1))
      let nearest := (dists.mergeSort (fun a b => a.1 ≤ b.1)).take k
      match connectInner loc m nearest with
      | (m', none) => connectOuter gd k m' rest
      | (m', some e) => (m', some e)

/-- `Map.connect_nearest_loc` (lines 36-54), with `k = max(0, min(k, len(names)-1))`
computed in `ℤ` exactly as the source does before being used as a slice bound. -/
def connect_nearest_loc (gd : Geo R) (m : Map) (k : ℤ) : Map × Option String :=
  let names := keysA m.locations
  let kk := (max 0 (min k ((names.length : ℤ) - 1))).toNat
  connectOuter gd kk m names

/-! ## Path reconstruction (dijkstra lines 200-205, bfs lines 233-238)

`while current is not None: path.append(current); current = parent.get(current)`.
`parent.get` yields `None` both for a missing key and for an explicit `None`
value; either ends the walk.  The walk is run on fuel (the callers pass
`parent.length + 1`, which the invariant proofs show is always enough); fuel
exhaustion models a parent-map cycle, on which the source would not terminate. -/
def reconstruct (parent : List (String × Option String)) : String → ℕ → Option (List String)
  | _, 0 => none
  | cur, n + 1 =>
    match lookupA parent cur with
    | some (some p) => (reconstruct parent p n).map (cur :: ·)
    | _ => some [cur]

/-! ## `Map.bfs` (lines 225-244) -/

structure BfsState where
  visited : List String
  queue : List String
  parent : List (String × Option String)

inductive BfsOutcome
  | found (path : List String)
  | noPath
  | reconFail
  | outOfFuel
deriving DecidableEq

/-- The `while queue` loop of `bfs` (lines 230-244). -/
def bfsLoop (m : Map) (dest : String) : BfsState → ℕ → BfsOutcome
  | _, 0 => .outOfFuel
  | ⟨visited, q, parent⟩, fuel + 1 =>
    match q with
    | [] => .noPath
    | vertex :: rest =>
      if vertex = dest then
        match reconstruct parent dest (parent.length + 1) with
        | some p => .found p.reverse
        | none => .reconFail
      else
        let st := ((lookupA m.neighbours vertex).getD []).foldl
          (fun (s : BfsState) n =>
            if n ∈ s.visited then s
            else ⟨s.visited ++ [n], s.queue ++ [n], insertA s.parent n (some vertex)⟩)
          ⟨visited, rest, parent⟩
        bfsLoop m dest st fuel

/-- `Map.bfs(root, destination)`.  `noPath` is the source's implicit
`return None` when the queue empties. -/
def bfs (m : Map) (root dest : String) (fuel : ℕ) : BfsOutcome :=
  bfsLoop m dest ⟨[root], [root], [(root, none)]⟩ fuel

/-! ## `Map.dijkstra` (lines 172-219) -/

/-- The weighted graph built at lines 174-186: for every `neighbours` key a row
mapping each listed neighbour to the recomputed geodesic distance. -/
abbrev Graph (R : Type) := List (String × List (String × R))

/-- Inner loop of the graph build (lines 180-186).  `self.locations[...]` raises
`KeyError` (modelled as `none`) when a name has no location entry. -/
def buildRow (gd : Geo R) (m : Map) (locName : String) :
    List String → List (String × R) → Option (List (String × R))
  | [], acc => some acc
  | nn :: rest, acc =>
    match lookupA m.locations locName, lookupA m.locations nn with
    | some l1, some l2 =>
      buildRow gd m locName rest (insertA acc nn (calculate_distance gd l1 l2))
    | _, _ => none

/-- Outer loop of the graph build (lines 177-186). -/
def buildGraphAux (gd : Geo R) (m : Map) : List (String × List String) → Graph R → Option (Graph R)
  | [], acc => some acc
  | (ln, nbrs) :: rest, acc =>
    match buildRow gd m ln nbrs [] with
    | some row => buildGraphAux gd m rest (insertA acc ln row)
    | none => none

def buildGraph (gd : Geo R) (m : Map) : Option (Graph R) :=
  buildGraphAux gd m m.neighbours []

/-- `distances = {node: float('inf') for node in graph}; distances[start] = 0`
(lines 188-189).  `none` is `float('inf')`. -/
def initDist (g : Graph R) (start : String) : List (String × Option R) :=
  insertA (g.map (fun p => (p.1, (none : Option R)))) start (some 0)

/-- `alt_distance < distances[neighbor]` where the right side may be infinite. -/
def ltInf (a : R) : Option R → Bool
  | none => true
  | some b => decide (a < b)

/-- `current_distance > distances[current_node]` where the right side may be
infinite. -/
def gtInf (a : R) : Option R → Bool
  | none => false
  | some b => decide (b < a)

/-- `heapq` entry ordering: Python compares `(distance, name)` tuples
lexicographically, strings by code point. -/
def entryLe (a b : R × String) : Bool :=
  decide (a.1 < b.1) || (decide (a.1 = b.1) && (compare a.2 b.2).isLE)

/-- `heapq.heappop`: remove and return the least `(distance, name)` entry. -/
def popMin : List (R × String) → Option ((R × String) × List (R × String))
  | [] => none
  | e :: rest =>
    match popMin rest with
    | none => some (e, [])
    | some (m, rest') => if entryLe e m then some (e, rest) else some (m, e :: rest')

structure DState (R : Type) where
  dist : List (String × Option R)
  parent : List (String × Option String)
  queue : List (R × String)

/-- Every way `Map.dijkstra` can leave the `while` loop:
`ok` is the `return path, distances[destination]` at line 206 (an infinite
distance is `none`); `noPath` is the implicit `return None` when the queue
empties; `keyError` is a raised `KeyError` (lines 181-182, 188 via 214, 210,
206, 216); `reconFail` is a parent-map cycle in reconstruction. -/
inductive DOutcome (R : Type)
  | ok (path : List String) (cost : Option R)
  | noPath
  | keyError
  | reconFail
  | outOfFuel
deriving DecidableEq

/-- One relaxation (lines 214-219) of the edge `nw` out of `u` popped at
distance `d`. -/
def relaxEdge (u : String) (d : R) (s : DState R) (nw : String × R) : Option (DState R) :=
  let alt := d + nw.2
  match lookupA s.dist nw.1 with
  | none => none
  | some dn =>
    if ltInf alt dn then
      some ⟨insertA s.dist nw.1 (some alt), insertA s.parent nw.1 (some u),
            s.queue ++ [(alt, nw.1)]⟩
    else some s

/-- The `for neighbor, weight in graph[current_node].items()` loop. -/
def relaxAll (u : String) (d : R) (nbrs : List (String × R)) (s : DState R) :
    Option (DState R) :=
  nbrs.foldlM (relaxEdge u d) s

/-- The `while queue` loop of `dijkstra` (lines 194-219). -/
def dijkstraLoop (g : Graph R) (dest : String) : DState R → ℕ → DOutcome R
  | _, 0 => .outOfFuel
  | s, fuel + 1 =>
    match popMin s.queue with
    | none => .noPath
    | some ((d, u), q') =>
      if u = dest then
        match reconstruct s.parent dest (s.parent.length + 1) with
        | some p =>
          match lookupA s.dist dest with
          | some c => .ok p.reverse c
          | none => .keyError
        | none => .reconFail
      else
        match lookupA s.dist u with
        | none => .keyError
        | some du =>
          if gtInf d du then dijkstraLoop g dest ⟨s.dist, s.parent, q'⟩ fuel
          else
            match lookupA g u with
            | none => .keyError
            | some nbrs =>
              match relaxAll u d nbrs ⟨s.dist, s.parent, q'⟩ with
              | none => .keyError
              | some s' => dijkstraLoop g dest s' fuel

/-- `Map.dijkstra(start, destination)` (lines 172-219). -/
def dijkstra (gd : Geo R) (m : Map) (start dest : String) (fuel : ℕ) : DOutcome R :=
  match buildGraph gd m with
  | none => .keyError
  | some g => dijkstraLoop g dest ⟨initDist g start, [(start, none)], [(0, start)]⟩ fuel

/-- The weight of the directed edge `a → b` in the built graph `g`. -/
def edgeW (g : Graph R) (a b : String) : Option R :=
  match lookupA g a with
  | none => none
  | some row => lookupA row b

/-- The summed weight of a path through the built graph `g`: `some` of the sum
of the per-edge weights when every consecutive pair is an edge of `g`. -/
def pathCost (g : Graph R) : List String → Option R
  | [] => some 0
  | [_] => some 0
  | a :: b :: rest =>
    match edgeW g a b with
    | none => none
    | some w => (pathCost g (b :: rest)).map (w + ·)

/-! ## `nearest_node` (spec §4.4), called from app.py `ensure_points_from_click` -/

/-- Modelled from the spec: `nearestNode(lat, lon)` (spec §4.4).  The
implementation is not under `src/` — `app.py` calls `m.nearest_node` from a
`Maps` version that also defines `load_dimacs_map`, neither present in
`src/Maps.py`.  Per the spec it performs a linear scan over the cached node
coordinates keeping the node of minimum squared planar-approximate distance,
and fails on an empty graph.  The squared planar-approximate distance (radian
conversion plus equirectangular scaling) is abstracted as the parameter `pd`
applied to the query and node `(lat, long)` pairs. -/
def nearest_node (pd : Geo R) (m : Map) (lat lon : ℚ) : Option String :=
  match m.locations with
  | [] => none
  | p :: rest =>
    some ((rest.foldl
      (fun (best : String × R) q =>
        if pd (lat, lon) (q.2.lat, q.2.long) < best.2
        then (q.1, pd (lat, lon) (q.2.lat, q.2.long)) else best)
      (p.1, pd (lat, lon) (p.2.lat, p.2.long))).1)

/-! ## Association-list lemmas -/

@[simp] theorem keysA_nil {α : Type} : keysA ([] : List (String × α)) = [] := rfl

@[simp] theorem keysA_cons {α : Type} (p : String × α) (l : List (String × α)) :
    keysA (p :: l) = p.1 :: keysA l := rfl

theorem insertA_cons_eq {α : Type} {k₀ k : String} (h : k₀ = k) (v₀ v : α)
    (l : List (String × α)) : insertA ((k₀, v₀) :: l) k v = (k₀, v) :: l := by
  simp [insertA, h]

theorem insertA_cons_ne {α : Type} {k₀ k : String} (h : ¬ k₀ = k) (v₀ v : α)
    (l : List (String × α)) : insertA ((k₀, v₀) :: l) k v = (k₀, v₀) :: insertA l k v := by
  simp [insertA, h]

theorem lookupA_cons_eq {α : Type} {k₀ k : String} (h : k₀ = k) (v₀ : α)
    (l : List (String × α)) : lookupA ((k₀, v₀) :: l) k = some v₀ := by
  simp [lookupA, h]

theorem lookupA_cons_ne {α : Type} {k₀ k : String} (h : ¬ k₀ = k) (v₀ : α)
    (l : List (String × α)) : lookupA ((k₀, v₀) :: l) k = lookupA l k := by
  simp [lookupA, h]

theorem lookupA_insertA_self {α : Type} (l : List (String × α)) (k : String) (v : α) :
    lookupA (insertA l k v) k = some v := by
  induction l with
  | nil => simp [insertA, lookupA]
  | cons p rest ih =>
    obtain ⟨k', v'⟩ := p
    by_cases h : k' = k
    · rw [insertA_cons_eq h, lookupA_cons_eq h]
    · rw [insertA_cons_ne h, lookupA_cons_ne h, ih]

theorem lookupA_insertA_ne {α : Type} (l : List (String × α)) (k k' : String) (v : α)
    (h : k' ≠ k) : lookupA (insertA l k v) k' = lookupA l k' := by
  induction l with
  | nil =>
    simp only [insertA, lookupA, if_neg (Ne.symm h)]
  | cons p rest ih =>
    obtain ⟨k₀, v₀⟩ := p
    by_cases h₀ : k₀ = k
    · subst h₀
      rw [insertA_cons_eq rfl, lookupA_cons_ne (Ne.symm h),
        lookupA_cons_ne (Ne.symm h)]
    · rw [insertA_cons_ne h₀]
      by_cases h₁ : k₀ = k'
      · rw [lookupA_cons_eq h₁, lookupA_cons_eq h₁]
      · rw [lookupA_cons_ne h₁, lookupA_cons_ne h₁, ih]

theorem mem_keysA_iff {α : Type} (l : List (String × α)) (k : String) :
    k ∈ keysA l ↔ (lookupA l k).isSome := by
  induction l with
  | nil => simp [lookupA]
  | cons p rest ih =>
    obtain ⟨k₀, v₀⟩ := p
    by_cases h : k₀ = k
    · rw [lookupA_cons_eq h]
      simp [h.symm]
    · rw [lookupA_cons_ne h, keysA_cons, List.mem_cons, ← ih]
      simp [Ne.symm h]

theorem lookupA_eq_some_mem {α : Type} {l : List (String × α)} {k : String} {v : α}
    (h : lookupA l k = some v) : (k, v) ∈ l := by
  induction l with
  | nil => simp [lookupA] at h
  | cons p rest ih =>
    obtain ⟨k₀, v₀⟩ := p
    by_cases h₀ : k₀ = k
    · subst h₀
      rw [lookupA_cons_eq rfl] at h
      simp only [Option.some.injEq] at h
      subst h
      exact List.mem_cons_self _ _
    · rw [lookupA_cons_ne h₀] at h
      exact List.mem_cons_of_mem _ (ih h)

theorem mem_lookupA_nodup {α : Type} {l : List (String × α)} {k : String} {v : α}
    (hnd : (keysA l).Nodup) (h : (k, v) ∈ l) : lookupA l k = some v := by
  induction l with
  | nil => simp at h
  | cons p rest ih =>
    obtain ⟨k₀, v₀⟩ := p
    rw [keysA_cons, List.nodup_cons] at hnd
    rcases List.mem_cons.mp h with h₁ | h₁
    · rw [Prod.mk.injEq] at h₁
      obtain ⟨hk, hv⟩ := h₁
      subst hk
      subst hv
      exact lookupA_cons_eq rfl v rest
    · have hk : ¬ k₀ = k := by
        intro hkk
        subst hkk
        exact hnd.1 (List.mem_map.mpr ⟨(k₀, v), h₁, rfl⟩)
      rw [lookupA_cons_ne hk]
      exact ih hnd.2 h₁

theorem mem_insertA {α : Type} {l : List (String × α)} {k : String} {v : α} {p : String × α}
    (h : p ∈ insertA l k v) : p = (k, v) ∨ p ∈ l := by
  induction l with
  | nil => simpa [insertA] using h
  | cons q rest ih =>
    obtain ⟨k₀, v₀⟩ := q
    by_cases h₀ : k₀ = k
    · rw [insertA_cons_eq h₀] at h
      rcases List.mem_cons.mp h with h₁ | h₁
      · exact .inl (by rw [h₁, h₀])
      · exact .inr (List.mem_cons_of_mem _ h₁)
    · rw [insertA_cons_ne h₀] at h
      rcases List.mem_cons.mp h with h₁ | h₁
      · exact .inr (by rw [h₁]; exact List.mem_cons_self _ _)
      · rcases ih h₁ with h₂ | h₂
        · exact .inl h₂
        · exact .inr (List.mem_cons_of_mem _ h₂)

theorem keysA_insertA_of_isSome {α : Type} (l : List (String × α)) (k : String) (v : α)
    (h : (lookupA l k).isSome) : keysA (insertA l k v) = keysA l := by
  induction l with
  | nil => simp [lookupA] at h
  | cons p rest ih =>
    obtain ⟨k₀, v₀⟩ := p
    by_cases h₀ : k₀ = k
    · rw [insertA_cons_eq h₀]
      rfl
    · rw [lookupA_cons_ne h₀] at h
      rw [insertA_cons_ne h₀, keysA_cons, keysA_cons, ih h]

theorem keysA_insertA_of_isNone {α : Type} (l : List (String × α)) (k : String) (v : α)
    (h : lookupA l k = none) : keysA (insertA l k v) = keysA l ++ [k] := by
  induction l with
  | nil => simp [insertA]
  | cons p rest ih =>
    obtain ⟨k₀, v₀⟩ := p
    by_cases h₀ : k₀ = k
    · rw [lookupA_cons_eq h₀] at h
      exact Option.noConfusion h
    · rw [lookupA_cons_ne h₀] at h
      rw [insertA_cons_ne h₀, keysA_cons, keysA_cons, ih h]
      rfl

theorem nodup_keysA_insertA {α : Type} {l : List (String × α)} (k : String) (v : α)
    (hnd : (keysA l).Nodup) : (keysA (insertA l k v)).Nodup := by
  rcases ho : lookupA l k with _ | w
  · rw [keysA_insertA_of_isNone l k v ho]
    refine List.Nodup.append hnd (List.nodup_singleton k) ?_
    intro x hx hx'
    rw [List.mem_singleton] at hx'
    subst hx'
    rw [mem_keysA_iff, ho] at hx
    simp at hx
  · rw [keysA_insertA_of_isSome l k v (by simp [ho])]
    exact hnd

theorem lookupA_isSome_insertA {α : Type} (l : List (String × α)) (k k' : String) (v : α) :
    (lookupA (insertA l k v) k').isSome ↔ (k' = k ∨ (lookupA l k').isSome) := by
  by_cases h : k' = k
  · subst h
    simp [lookupA_insertA_self]
  · simp [lookupA_insertA_ne l k k' v h, h]

/-! ## `popMin` lemmas -/

theorem popMin_eq_none_iff (l : List (R × String)) : popMin l = none ↔ l = [] := by
  cases l with
  | nil => simp [popMin]
  | cons e rest =>
    simp only [popMin]
    rcases h : popMin rest with _ | p
    · simp
    · obtain ⟨m, rest'⟩ := p
      by_cases he : entryLe e m <;> simp [he]

theorem popMin_perm {l : List (R × String)} {e : R × String} {rest : List (R × String)}
    (h : popMin l = some (e, rest)) : l.Perm (e :: rest) := by
  induction l generalizing e rest with
  | nil => simp [popMin] at h
  | cons a t ih =>
    rcases ht : popMin t with _ | p
    · simp only [popMin, ht] at h
      rw [(popMin_eq_none_iff t).mp ht]
      simp only [Option.some.injEq, Prod.mk.injEq] at h
      rw [← h.1, ← h.2]
    · obtain ⟨m, rest'⟩ := p
      simp only [popMin, ht] at h
      by_cases he : entryLe a m
      · rw [if_pos he] at h
        simp only [Option.some.injEq, Prod.mk.injEq] at h
        rw [← h.1, ← h.2]
      · rw [if_neg he] at h
        simp only [Option.some.injEq, Prod.mk.injEq] at h
        have h1 : (a :: t).Perm (a :: m :: rest') := (ih ht).cons a
        have h2 : (a :: m :: rest').Perm (m :: a :: rest') := List.Perm.swap m a rest'
        rw [← h.1, ← h.2]
        exact h1.trans h2

theorem popMin_min {l : List (R × String)} {e : R × String} {rest : List (R × String)}
    (h : popMin l = some (e, rest)) : ∀ x ∈ l, e.1 ≤ x.1 := by
  induction l generalizing e rest with
  | nil => simp [popMin] at h
  | cons a t ih =>
    rcases ht : popMin t with _ | p
    · simp only [popMin, ht] at h
      simp only [Option.some.injEq, Prod.mk.injEq] at h
      intro x hx
      rw [(popMin_eq_none_iff t).mp ht] at hx
      rw [List.mem_singleton] at hx
      subst hx
      rw [← h.1]
    · obtain ⟨m, rest'⟩ := p
      simp only [popMin, ht] at h
      by_cases he : entryLe a m
      · rw [if_pos he] at h
        simp only [Option.some.injEq, Prod.mk.injEq] at h
        have ham : a.1 ≤ m.1 := by
          rcases (by simpa [entryLe, Bool.or_eq_true, Bool.and_eq_true,
              decide_eq_true_eq] using he : a.1 < m.1 ∨ a.1 = m.1 ∧ (compare a.2 m.2).isLE)
            with h₁ | h₁
          · exact le_of_lt h₁
          · exact le_of_eq h₁.1
        intro x hx
        rw [← h.1]
        rcases List.mem_cons.mp hx with h₂ | h₂
        · rw [h₂]
        · exact le_trans ham (ih ht x h₂)
      · rw [if_neg he] at h
        simp only [Option.some.injEq, Prod.mk.injEq] at h
        have hma : m.1 ≤ a.1 := by
          have hn : ¬ (a.1 < m.1) := by
            intro hlt
            exact he (by simp [entryLe, hlt])
          exact le_of_not_lt hn
        intro x hx
        rw [← h.1]
        rcases List.mem_cons.mp hx with h₂ | h₂
        · rw [h₂]
          exact hma
        · exact ih ht x h₂

theorem pathCost_cons_cons (g : Graph R) (a b : String) (rest : List String) :
    pathCost g (a :: b :: rest) =
      match edgeW g a b with
      | none => none
      | some w => (pathCost g (b :: rest)).map (w + ·) := rfl

/-! ## Counting lemmas used for reconstruction termination -/

theorem countP_le_of_mono {α : Type} {P Q : α → Bool} (hmono : ∀ a, P a = true → Q a = true) :
    ∀ l : List α, l.countP P ≤ l.countP Q := by
  intro l
  induction l with
  | nil => simp
  | cons b t ih =>
    rw [List.countP_cons, List.countP_cons]
    by_cases hb : P b = true
    · rw [if_pos hb, if_pos (hmono b hb)]
      omega
    · rw [if_neg hb]
      by_cases hq : Q b = true
      · rw [if_pos hq]
        omega
      · rw [if_neg hq]
        omega

theorem countP_lt_of_mem {α : Type} {l : List α} {P Q : α → Bool}
    (hmono : ∀ a, P a = true → Q a = true) {a : α} (ha : a ∈ l)
    (hP : ¬ P a = true) (hQ : Q a = true) : l.countP P < l.countP Q := by
  induction l with
  | nil => simp at ha
  | cons b t ih =>
    rw [List.countP_cons, List.countP_cons]
    rcases List.mem_cons.mp ha with h | h
    · subst h
      rw [if_neg hP, if_pos hQ]
      have := countP_le_of_mono hmono t
      omega
    · have hlt := ih h
      by_cases hb : P b = true
      · rw [if_pos hb, if_pos (hmono b hb)]
        omega
      · rw [if_neg hb]
        by_cases hq : Q b = true
        · rw [if_pos hq]
          omega
        · rw [if_neg hq]
          omega

/-! ## Path-reconstruction correctness

Under an acyclic, start-rooted parent map, reconstruction succeeds with any
fuel that exceeds the number of parent keys strictly below the starting node in
the acyclicity witness `depth`, and returns the parent chain from the node down
to `start`. -/

theorem reconstruct_spec (par : List (String × Option String)) (start : String)
    (hnone : ∀ v, lookupA par v = some none → v = start)
    (hkey : ∀ v p, lookupA par v = some (some p) → (lookupA par p).isSome)
    (depth : String → ℕ)
    (hdep : ∀ v p, lookupA par v = some (some p) → depth p < depth v) :
    ∀ n v, (lookupA par v).isSome →
      (keysA par).countP (fun k => decide (depth k < depth v)) < n →
      ∃ lst, reconstruct par v n = some lst ∧ lst.head? = some v ∧
        lst.getLast? = some start ∧
        List.Chain' (fun x y => lookupA par x = some (some y)) lst := by
  intro n
  induction n with
  | zero =>
    intro v _ hc
    omega
  | succ n ih =>
    intro v hv hc
    rcases hlv : lookupA par v with _ | o
    · rw [hlv] at hv
      simp at hv
    rcases o with _ | p
    · have hvs : v = start := hnone v hlv
      refine ⟨[v], ?_, rfl, by rw [hvs]; rfl, List.chain'_singleton v⟩
      simp only [reconstruct, hlv]
    · have hpk := hkey v p hlv
      have hdvp := hdep v p hlv
      have hcp : (keysA par).countP (fun k => decide (depth k < depth p)) < n := by
        have hlt := countP_lt_of_mem
          (P := fun k => decide (depth k < depth p))
          (Q := fun k => decide (depth k < depth v))
          (fun a ha => by
            simp only [decide_eq_true_eq] at ha ⊢
            omega)
          ((mem_keysA_iff par p).mpr hpk)
          (by simp only [decide_eq_true_eq]; omega)
          (by simp only [decide_eq_true_eq]; exact hdvp)
        omega
      obtain ⟨lst, h1, h2, h3, h4⟩ := ih p hpk hcp
      refine ⟨v :: lst, ?_, rfl, ?_, ?_⟩
      · simp only [reconstruct, hlv, h1, Option.map_some']
      · cases lst with
        | nil => simp at h2
        | cons b t =>
          rw [List.getLast?_cons_cons]
          exact h3
      · cases lst with
        | nil => simp at h2
        | cons b t =>
          have hb : b = p := by simpa using h2
          subst hb
          exact List.Chain'.cons hlv h4

/-! ## `pathCost` lemmas -/

theorem pathCost_snoc (g : Graph R) :
    ∀ (xs : List String) (p y : String) (q w : R),
      xs.getLast? = some p → pathCost g xs = some q → edgeW g p y = some w →
      pathCost g (xs ++ [y]) = some (q + w) := by
  intro xs
  induction xs with
  | nil =>
    intro p y q w h
    simp at h
  | cons a t ih =>
    intro p y q w hlast hcost hedge
    cases t with
    | nil =>
      have hap : a = p := by simpa using hlast
      subst hap
      have hq0 : q = 0 := by
        simpa [pathCost] using hcost.symm
      subst hq0
      show pathCost g [a, y] = some (0 + w)
      simp only [pathCost, hedge, Option.map_some']
      rw [add_zero, zero_add]
    | cons b t' =>
      have hlast' : (b :: t').getLast? = some p := by
        rw [List.getLast?_cons_cons] at hlast
        exact hlast
      rcases hedgeab : edgeW g a b with _ | w₁
      · rw [pathCost_cons_cons, hedgeab] at hcost
        exact Option.noConfusion hcost
      · rw [pathCost_cons_cons, hedgeab] at hcost
        rcases hpc : pathCost g (b :: t') with _ | q₁
        · rw [hpc] at hcost
          exact Option.noConfusion hcost
        · rw [hpc] at hcost
          simp only [Option.map_some', Option.some.injEq] at hcost
          have hrec := ih p y q₁ w hlast' hpc hedge
          rw [List.cons_append, List.cons_append, pathCost_cons_cons, hedgeab,
            ← List.cons_append, hrec]
          simp only [Option.map_some', Option.some.injEq]
          rw [← hcost, add_assoc]

/-- Along a parent chain from `v` down to `start`, the recorded distance of `v`
equals the summed edge weight of the reversed (start-to-`v`) path. -/
theorem chain_pathCost (g : Graph R) (dist : List (String × Option R))
    (par : List (String × Option String)) (start : String)
    (hd0 : lookupA dist start = some (some 0))
    (hpe : ∀ v p, lookupA par v = some (some p) →
      ∃ nbrs w qv qp, lookupA g p = some nbrs ∧ lookupA nbrs v = some w ∧
        lookupA dist v = some (some qv) ∧ lookupA dist p = some (some qp) ∧ qv = qp + w) :
    ∀ (lst : List String) (v : String), lst.head? = some v → lst.getLast? = some start →
      List.Chain' (fun x y => lookupA par x = some (some y)) lst →
      ∃ q, lookupA dist v = some (some q) ∧ pathCost g lst.reverse = some q := by
  intro lst
  induction lst with
  | nil =>
    intro v h
    simp at h
  | cons a t ih =>
    intro v hhead hlast hchain
    have hav : a = v := by simpa using hhead
    subst hav
    cases t with
    | nil =>
      have hastart : a = start := by simpa using hlast
      subst hastart
      exact ⟨0, hd0, by simp [pathCost]⟩
    | cons b t' =>
      have hlink : lookupA par a = some (some b) := (List.chain'_cons.mp hchain).1
      have hch' := (List.chain'_cons.mp hchain).2
      have hlast' : (b :: t').getLast? = some start := by
        rw [List.getLast?_cons_cons] at hlast
        exact hlast
      obtain ⟨qb, hqb, hpc⟩ := ih b rfl hlast' hch'
      obtain ⟨nbrs, w, qv, qp, hgrow, hrw, hdv, hdp, heq⟩ := hpe a b hlink
      have hqpqb : qp = qb := by
        rw [hdp] at hqb
        simpa using hqb
      have hedge : edgeW g b a = some w := by
        simp only [edgeW, hgrow]
        exact hrw
      have hlastrev : (b :: t').reverse.getLast? = some b := by
        rw [List.getLast?_reverse]
        rfl
      have hsnoc := pathCost_snoc g ((b :: t').reverse) b a qb w hlastrev hpc hedge
      refine ⟨qv, hdv, ?_⟩
      rw [List.reverse_cons, hsnoc, heq, hqpqb]

/-! ## Dijkstra loop invariants -/

/-- Rows of the built graph have duplicate-free keys (they are built with
`insertA`). -/
def RowsNodup (g : Graph R) : Prop :=
  ∀ u row, lookupA g u = some row → (keysA row).Nodup

/-- All edge weights of the built graph are non-negative (geodesic distances
are non-negative meters). -/
def GraphNonneg (g : Graph R) : Prop :=
  ∀ u row, lookupA g u = some row → ∀ nw ∈ row, 0 ≤ nw.2

/-- The invariant of `dijkstra`'s `while` loop.  `dist` is `distances`
(`none` = infinite), `parent` the reconstruction map, `queue` the heap. -/
structure DInv (g : Graph R) (start : String) (s : DState R) : Prop where
  distStart : lookupA s.dist start = some (some 0)
  parentStart : lookupA s.parent start = some none
  noneOnly : ∀ v, lookupA s.parent v = some none → v = start
  queueInv : ∀ e ∈ s.queue, 0 ≤ e.1 ∧ (lookupA s.parent e.2).isSome ∧
      ∃ q, lookupA s.dist e.2 = some (some q) ∧ q ≤ e.1
  parentInv : ∀ v p, lookupA s.parent v = some (some p) →
      (lookupA s.parent p).isSome ∧
      ∃ nbrs w qv qp,
        lookupA g p = some nbrs ∧ lookupA nbrs v = some w ∧
        lookupA s.dist v = some (some qv) ∧ lookupA s.dist p = some (some qp) ∧
        qv = qp + w ∧ (∀ e ∈ s.queue, qp ≤ e.1)
  depthInv : ∃ depth : String → ℕ,
      ∀ v p, lookupA s.parent v = some (some p) → depth p < depth v

theorem dinv_init (g : Graph R) (start : String) :
    DInv g start ⟨initDist g start, [(start, none)], [(0, start)]⟩ := by
  constructor
  · exact lookupA_insertA_self _ start (some 0)
  · exact lookupA_cons_eq rfl none []
  · intro v hv
    by_cases h : start = v
    · exact h.symm
    · rw [lookupA_cons_ne h] at hv
      simp [lookupA] at hv
  · intro e he
    rw [List.mem_singleton] at he
    subst he
    refine ⟨le_refl 0, by rw [lookupA_cons_eq rfl]; rfl, 0, lookupA_insertA_self _ start _, le_refl 0⟩
  · intro v p hv
    by_cases h : start = v
    · rw [lookupA_cons_eq h] at hv
      simp at hv
    · rw [lookupA_cons_ne h] at hv
      simp [lookupA] at hv
  · refine ⟨fun _ => 0, fun v p hv => ?_⟩
    by_cases h : start = v
    · rw [lookupA_cons_eq h] at hv
      simp at hv
    · rw [lookupA_cons_ne h] at hv
      simp [lookupA] at hv

/-- The invariant only bounds queue entries from above, so it survives any
shrinking of the queue. -/
theorem dinv_subqueue {g : Graph R} {start : String} {s : DState R}
    (hinv : DInv g start s) (q' : List (R × String)) (hsub : ∀ e ∈ q', e ∈ s.queue) :
    DInv g start ⟨s.dist, s.parent, q'⟩ := by
  obtain ⟨h1, h2, h3, h4, h5, h6⟩ := hinv
  refine ⟨h1, h2, h3, ?_, ?_, h6⟩
  · intro e he
    exact h4 e (hsub e he)
  · intro v p hv
    obtain ⟨hp, nbrs, w, qv, qp, hg, hr, hdv, hdp, heq, hset⟩ := h5 v p hv
    exact ⟨hp, nbrs, w, qv, qp, hg, hr, hdv, hdp, heq, fun e he => hset e (hsub e he)⟩

/-- The extra facts available while the popped node `u` (at exact distance `d`)
is being expanded: `d` is a lower bound of the whole frontier, and every node
already used as a parent has a final distance at most `d`. -/
structure RelaxCtx (g : Graph R) (start u : String) (d : R) (s : DState R) : Prop where
  inv : DInv g start s
  distU : lookupA s.dist u = some (some d)
  parentU : (lookupA s.parent u).isSome
  dLB : ∀ e ∈ s.queue, d ≤ e.1
  dNonneg : 0 ≤ d
  settledLB : ∀ v p, lookupA s.parent v = some (some p) →
      ∃ qp, lookupA s.dist p = some (some qp) ∧ qp ≤ d

theorem relaxEdge_pres {g : Graph R} {start u : String} {d : R} {s s' : DState R}
    {n : String} {w : R} (hctx : RelaxCtx g start u d s) (hw : 0 ≤ w)
    (hrow : ∃ row, lookupA g u = some row ∧ lookupA row n = some w)
    (h : relaxEdge u d s (n, w) = some s') : RelaxCtx g start u d s' := by
  rcases hdn : lookupA s.dist n with _ | dn
  · simp only [relaxEdge, hdn] at h
    exact Option.noConfusion h
  · simp only [relaxEdge, hdn] at h
    by_cases hlt : ltInf (d + w) dn
    · rw [if_pos hlt] at h
      injection h with h'
      subst h'
      have haltd : d ≤ d + w := le_add_of_nonneg_right hw
      have halt0 : 0 ≤ d + w := add_nonneg hctx.dNonneg hw
      have hne_start : n ≠ start := by
        intro hns
        subst hns
        rw [hctx.inv.distStart] at hdn
        injection hdn with hdn'
        subst hdn'
        simp only [ltInf, decide_eq_true_eq] at hlt
        exact absurd hlt (not_lt_of_le halt0)
      have hne_u : n ≠ u := by
        intro hnu
        subst hnu
        rw [hctx.distU] at hdn
        injection hdn with hdn'
        subst hdn'
        simp only [ltInf, decide_eq_true_eq] at hlt
        exact absurd hlt (not_lt_of_le haltd)
      have hnoparent : ∀ x, ¬ lookupA s.parent x = some (some n) := by
        intro x hx
        obtain ⟨qn, hqn, hqnd⟩ := hctx.settledLB x n hx
        rw [hqn] at hdn
        injection hdn with hdn'
        subst hdn'
        simp only [ltInf, decide_eq_true_eq] at hlt
        exact absurd hlt (not_lt_of_le (le_trans hqnd haltd))
      have hd'n : lookupA (insertA s.dist n (some (d + w))) n = some (some (d + w)) :=
        lookupA_insertA_self _ n _
      have hd'x : ∀ x, x ≠ n → lookupA (insertA s.dist n (some (d + w))) x = lookupA s.dist x :=
        fun x hx => lookupA_insertA_ne _ n x _ hx
      have hp'n : lookupA (insertA s.parent n (some u)) n = some (some u) :=
        lookupA_insertA_self _ n _
      have hp'x : ∀ x, x ≠ n →
          lookupA (insertA s.parent n (some u)) x = lookupA s.parent x :=
        fun x hx => lookupA_insertA_ne _ n x _ hx
      refine ⟨?_, ?_, ?_, ?_, ?_, ?_⟩
      · refine ⟨?_, ?_, ?_, ?_, ?_, ?_⟩
        ·
          rw [hd'x start (Ne.symm hne_start)]
          exact hctx.inv.distStart
        · rw [hp'x start (Ne.symm hne_start)]
          exact hctx.inv.parentStart
        ·
          intro v hv
          by_cases hvn : v = n
          · subst hvn
            rw [hp'n] at hv
            simp at hv
          · rw [hp'x v hvn] at hv
            exact hctx.inv.noneOnly v hv
        · intro e he
          rcases List.mem_append.mp he with he₁ | he₁
          · obtain ⟨he0, hps, q, hq, hqle⟩ := hctx.inv.queueInv e he₁
            refine ⟨he0, ?_, ?_⟩
            · by_cases hen : e.2 = n
              · rw [hen, hp'n]
                rfl
              · rw [hp'x e.2 hen]
                exact hps
            · by_cases hen : e.2 = n
              · refine ⟨d + w, by rw [hen, hd'n], ?_⟩
                rw [hen] at hq
                rw [hq] at hdn
                injection hdn with hdn'
                subst hdn'
                simp only [ltInf, decide_eq_true_eq] at hlt
                exact le_of_lt (lt_of_lt_of_le hlt hqle)
              · exact ⟨q, by rw [hd'x e.2 hen]; exact hq, hqle⟩
          · rw [List.mem_singleton] at he₁
            subst he₁
            exact ⟨halt0, by rw [hp'n]; rfl, d + w, hd'n, le_refl _⟩
        · intro v p hv
          by_cases hvn : v = n
          · subst hvn
            rw [hp'n] at hv
            have hup : u = p := Option.some.inj (Option.some.inj hv)
            subst hup
            obtain ⟨row, hgrow, hrown⟩ := hrow
            refine ⟨?_, row, w, d + w, d, hgrow, hrown, hd'n, ?_, rfl, ?_⟩
            · rw [hp'x u (Ne.symm hne_u)]
              exact hctx.parentU
            · rw [hd'x u (Ne.symm hne_u)]
              exact hctx.distU
            · intro e he
              rcases List.mem_append.mp he with he₁ | he₁
              · exact hctx.dLB e he₁
              · rw [List.mem_singleton] at he₁
                subst he₁
                exact haltd
          · rw [hp'x v hvn] at hv
            have hpn : p ≠ n := by
              intro hpn
              exact hnoparent v (hpn ▸ hv)
            obtain ⟨hpk, nbrs, w₀, qv, qp, hg0, hr0, hdv0, hdp0, heq0, hset0⟩ :=
              hctx.inv.parentInv v p hv
            obtain ⟨qp', hqp', hqp'd⟩ := hctx.settledLB v p hv
            have hqq : qp' = qp := by
              rw [hdp0] at hqp'
              exact (Option.some.inj (Option.some.inj hqp')).symm
            subst hqq
            refine ⟨by rw [hp'x p hpn]; exact hpk, nbrs, w₀, qv, qp', hg0, hr0,
              by rw [hd'x v hvn]; exact hdv0, by rw [hd'x p hpn]; exact hdp0, heq0, ?_⟩
            intro e he
            rcases List.mem_append.mp he with he₁ | he₁
            · exact hset0 e he₁
            · rw [List.mem_singleton] at he₁
              subst he₁
              exact le_trans hqp'd haltd
        · obtain ⟨depth, hdep⟩ := hctx.inv.depthInv
          refine ⟨Function.update depth n (depth u + 1), ?_⟩
          intro v p hv
          by_cases hvn : v = n
          · subst hvn
            rw [hp'n] at hv
            have hup : u = p := Option.some.inj (Option.some.inj hv)
            subst hup
            rw [Function.update_same, Function.update_noteq (Ne.symm hne_u)]
            exact Nat.lt_succ_self _
          · rw [hp'x v hvn] at hv
            have hpn : p ≠ n := by
              intro hpn
              exact hnoparent v (hpn ▸ hv)
            rw [Function.update_noteq hvn, Function.update_noteq hpn]
            exact hdep v p hv
      · rw [hd'x u (Ne.symm hne_u)]
        exact hctx.distU
      · rw [hp'x u (Ne.symm hne_u)]
        exact hctx.parentU
      · intro e he
        rcases List.mem_append.mp he with he₁ | he₁
        · exact hctx.dLB e he₁
        · rw [List.mem_singleton] at he₁
          subst he₁
          exact haltd
      · exact hctx.dNonneg
      · intro v p hv
        by_cases hvn : v = n
        · subst hvn
          rw [hp'n] at hv
          have hup : u = p := Option.some.inj (Option.some.inj hv)
          subst hup
          exact ⟨d, by rw [hd'x u (Ne.symm hne_u)]; exact hctx.distU, le_refl d⟩
        · rw [hp'x v hvn] at hv
          have hpn : p ≠ n := by
            intro hpn
            exact hnoparent v (hpn ▸ hv)
          obtain ⟨qp, h1, h2⟩ := hctx.settledLB v p hv
          exact ⟨qp, by rw [hd'x p hpn]; exact h1, h2⟩
    · rw [if_neg hlt] at h
      injection h with h'
      subst h'
      exact hctx

theorem relaxAll_pres {g : Graph R} {start u : String} {d : R} {row : List (String × R)}
    (hnd : (keysA row).Nodup) (hnn : ∀ nw ∈ row, 0 ≤ nw.2)
    (hgrow : lookupA g u = some row) :
    ∀ (l : List (String × R)), (∀ nw ∈ l, nw ∈ row) →
      ∀ {s s' : DState R}, RelaxCtx g start u d s →
        List.foldlM (relaxEdge u d) s l = some s' → RelaxCtx g start u d s' := by
  intro l
  induction l with
  | nil =>
    intro _ s s' hctx h
    simp only [List.foldlM_nil] at h
    injection h with h'
    subst h'
    exact hctx
  | cons nw t ih =>
    intro hsub s s' hctx h
    rw [List.foldlM_cons] at h
    rcases h1 : relaxEdge u d s nw with _ | s₁
    · rw [h1] at h
      exact Option.noConfusion h
    · rw [h1] at h
      have hmem := hsub nw (List.mem_cons_self _ _)
      obtain ⟨n, w⟩ := nw
      have hctx1 := relaxEdge_pres hctx (hnn (n, w) hmem)
        ⟨row, hgrow, mem_lookupA_nodup hnd hmem⟩ h1
      exact ih (fun x hx => hsub x (List.mem_cons_of_mem _ hx)) hctx1 h

/-- Conditional correctness of the `while` loop: whatever fuel it is given, if
it returns `(path, cost)` then the path runs from `start` to `dest` along
graph edges and `cost` is exactly the summed weight of its edges. -/
theorem dijkstraLoop_ok_spec (g : Graph R) (start dest : String)
    (hwf : RowsNodup g) (hnn : GraphNonneg g) :
    ∀ (fuel : ℕ) (s : DState R) (path : List String) (c : Option R),
      DInv g start s → dijkstraLoop g dest s fuel = .ok path c →
      path ≠ [] ∧ path.head? = some start ∧ path.getLast? = some dest ∧
      (∃ q, c = some q ∧ pathCost g path = some q) ∧
      List.Chain' (fun x y => ∃ row w, lookupA g x = some row ∧ lookupA row y = some w)
        path := by
  intro fuel
  induction fuel with
  | zero =>
    intro s path c _ h
    exact absurd h (by simp [dijkstraLoop])
  | succ fuel ih =>
    intro s path c hinv h
    rcases hpop : popMin s.queue with _ | pr
    · simp only [dijkstraLoop, hpop] at h
      exact DOutcome.noConfusion h
    obtain ⟨⟨d, u⟩, q'⟩ := pr
    simp only [dijkstraLoop, hpop] at h
    have hmem : (d, u) ∈ s.queue :=
      (popMin_perm hpop).symm.subset (List.mem_cons_self _ _)
    have hsub : ∀ e ∈ q', e ∈ s.queue :=
      fun e he => (popMin_perm hpop).symm.subset (List.mem_cons_of_mem _ he)
    obtain ⟨hd0, hpu, q0, hdq, hqle⟩ := hinv.queueInv (d, u) hmem
    by_cases hud : u = dest
    · subst hud
      rw [if_pos rfl] at h
      obtain ⟨depth, hdep⟩ := hinv.depthInv
      have hkey : ∀ v p, lookupA s.parent v = some (some p) →
          (lookupA s.parent p).isSome := fun v p hv => (hinv.parentInv v p hv).1
      have hcnt : (keysA s.parent).countP (fun k => decide (depth k < depth u))
          < s.parent.length + 1 := by
        have h1 := List.countP_le_length
          (p := fun k => decide (depth k < depth u)) (l := keysA s.parent)
        have h2 : (keysA s.parent).length = s.parent.length := List.length_map _ _
        omega
      obtain ⟨lst, hrec, hhead, hlast, hchain⟩ :=
        reconstruct_spec s.parent start hinv.noneOnly hkey depth hdep
          (s.parent.length + 1) u hpu hcnt
      rw [hrec, hdq] at h
      simp only [DOutcome.ok.injEq] at h
      obtain ⟨hpath, hcost⟩ := h
      have hlstne : lst ≠ [] := by
        intro hl
        rw [hl] at hhead
        exact Option.noConfusion hhead
      have hpe : ∀ v p, lookupA s.parent v = some (some p) →
          ∃ nbrs w qv qp, lookupA g p = some nbrs ∧ lookupA nbrs v = some w ∧
            lookupA s.dist v = some (some qv) ∧ lookupA s.dist p = some (some qp) ∧
            qv = qp + w := by
        intro v p hv
        obtain ⟨_, nbrs, w, qv, qp, h1, h2, h3, h4, h5, _⟩ := hinv.parentInv v p hv
        exact ⟨nbrs, w, qv, qp, h1, h2, h3, h4, h5⟩
      obtain ⟨q, hq, hpcost⟩ :=
        chain_pathCost g s.dist s.parent start hinv.distStart hpe lst u hhead hlast hchain
      have hqq : q = q0 := by
        rw [hdq] at hq
        exact (Option.some.inj (Option.some.inj hq)).symm
      refine ⟨?_, ?_, ?_, ?_, ?_⟩
      · rw [← hpath]
        intro hnil
        exact hlstne (by simpa using congrArg List.reverse hnil)
      · rw [← hpath, List.head?_reverse]
        exact hlast
      · rw [← hpath, List.getLast?_reverse]
        exact hhead
      · refine ⟨q0, hcost.symm, ?_⟩
        rw [← hpath, ← hqq]
        exact hpcost
      · rw [← hpath]
        rw [List.chain'_reverse]
        refine List.Chain'.imp ?_ hchain
        intro a b hab
        obtain ⟨_, nbrs, w, _, _, h1, h2, _⟩ := hinv.parentInv a b hab
        exact ⟨nbrs, w, h1, h2⟩
    · rw [if_neg hud] at h
      simp only [hdq] at h
      by_cases hstale : gtInf d (some q0)
      · rw [if_pos hstale] at h
        exact ih _ path c (dinv_subqueue hinv q' hsub) h
      · rw [if_neg hstale] at h
        rcases hgu : lookupA g u with _ | nbrs
        · simp only [hgu] at h
          exact DOutcome.noConfusion h
        simp only [hgu] at h
        rcases hrel : relaxAll u d nbrs ⟨s.dist, s.parent, q'⟩ with _ | s'
        · simp only [hrel] at h
          exact DOutcome.noConfusion h
        simp only [hrel] at h
        have hqd : q0 = d := by
          refine le_antisymm hqle (le_of_not_lt ?_)
          intro hlt
          exact hstale (by simp [gtInf, hlt])
        subst hqd
        have hctx : RelaxCtx g start u q0 ⟨s.dist, s.parent, q'⟩ := by
          refine ⟨dinv_subqueue hinv q' hsub, hdq, hpu, ?_, hd0, ?_⟩
          · intro e he
            exact popMin_min hpop e (hsub e he)
          · intro v p hv
            obtain ⟨_, _, _, _, qp, _, _, _, hdp, _, hset⟩ := hinv.parentInv v p hv
            exact ⟨qp, hdp, hset (q0, u) hmem⟩
        have hctx' := relaxAll_pres (hwf u nbrs hgu) (hnn u nbrs hgu) hgu nbrs
          (fun x hx => hx) hctx hrel
        exact ih _ path c hctx'.inv h

/-! ## Characterisation of the built graph -/

theorem buildRow_lookup (gd : Geo R) (m : Map) (ln : String) :
    ∀ (nbrs : List String) (acc row : List (String × R)),
      buildRow gd m ln nbrs acc = some row →
      ∀ b w, lookupA row b = some w →
        (b ∉ nbrs ∧ lookupA acc b = some w) ∨
        (b ∈ nbrs ∧ ∃ l1 l2, lookupA m.locations ln = some l1 ∧
          lookupA m.locations b = some l2 ∧ w = calculate_distance gd l1 l2) := by
  intro nbrs
  induction nbrs with
  | nil =>
    intro acc row h b w hb
    simp only [buildRow] at h
    injection h with h'
    subst h'
    exact .inl ⟨by simp, hb⟩
  | cons nn rest ih =>
    intro acc row h b w hb
    rcases h1 : lookupA m.locations ln with _ | l1
    · simp only [buildRow, h1] at h
      exact Option.noConfusion h
    rcases h2 : lookupA m.locations nn with _ | l2
    · simp only [buildRow, h1, h2] at h
      exact Option.noConfusion h
    simp only [buildRow, h1, h2] at h
    rcases ih _ row h b w hb with ⟨hnb, hacc⟩ | ⟨hmem, hrest⟩
    · by_cases hbn : b = nn
      · subst hbn
        rw [lookupA_insertA_self] at hacc
        injection hacc with hacc'
        exact .inr ⟨List.mem_cons_self _ _, l1, l2, rfl, h2, hacc'.symm⟩
      · rw [lookupA_insertA_ne _ _ _ _ hbn] at hacc
        exact .inl ⟨by simp [hbn, hnb], hacc⟩
    · obtain ⟨l1x, l2x, ha, hbq, hw⟩ := hrest
      rw [h1] at ha
      exact .inr ⟨List.mem_cons_of_mem _ hmem, l1x, l2x, ha, hbq, hw⟩

theorem buildRow_mem (gd : Geo R) (m : Map) (ln : String) :
    ∀ (nbrs : List String) (acc row : List (String × R)),
      buildRow gd m ln nbrs acc = some row →
      ∀ nw ∈ row, nw ∈ acc ∨ ∃ l1 l2, lookupA m.locations ln = some l1 ∧
        lookupA m.locations nw.1 = some l2 ∧ nw.2 = calculate_distance gd l1 l2 := by
  intro nbrs
  induction nbrs with
  | nil =>
    intro acc row h nw hnw
    simp only [buildRow] at h
    injection h with h'
    subst h'
    exact .inl hnw
  | cons nn rest ih =>
    intro acc row h nw hnw
    rcases h1 : lookupA m.locations ln with _ | l1
    · simp only [buildRow, h1] at h
      exact Option.noConfusion h
    rcases h2 : lookupA m.locations nn with _ | l2
    · simp only [buildRow, h1, h2] at h
      exact Option.noConfusion h
    simp only [buildRow, h1, h2] at h
    rcases ih _ row h nw hnw with hacc | hnew
    · rcases mem_insertA hacc with heq | hold
      · subst heq
        exact .inr ⟨l1, l2, rfl, h2, rfl⟩
      · exact .inl hold
    · obtain ⟨l1x, l2x, ha, hbq, hw⟩ := hnew
      rw [h1] at ha
      exact .inr ⟨l1x, l2x, ha, hbq, hw⟩

theorem buildRow_nodup (gd : Geo R) (m : Map) (ln : String) :
    ∀ (nbrs : List String) (acc row : List (String × R)),
      buildRow gd m ln nbrs acc = some row →
      (keysA acc).Nodup → (keysA row).Nodup := by
  intro nbrs
  induction nbrs with
  | nil =>
    intro acc row h hnd
    simp only [buildRow] at h
    injection h with h'
    subst h'
    exact hnd
  | cons nn rest ih =>
    intro acc row h hnd
    rcases h1 : lookupA m.locations ln with _ | l1
    · simp only [buildRow, h1] at h
      exact Option.noConfusion h
    rcases h2 : lookupA m.locations nn with _ | l2
    · simp only [buildRow, h1, h2] at h
      exact Option.noConfusion h
    simp only [buildRow, h1, h2] at h
    exact ih _ row h (nodup_keysA_insertA _ _ hnd)

theorem buildGraphAux_lookup (gd : Geo R) (m : Map) :
    ∀ (l : List (String × List String)) (acc g : Graph R),
      buildGraphAux gd m l acc = some g →
      ∀ u row, lookupA g u = some row →
        lookupA acc u = some row ∨
        ∃ nbrs, (u, nbrs) ∈ l ∧ buildRow gd m u nbrs [] = some row := by
  intro l
  induction l with
  | nil =>
    intro acc g h u row hu
    simp only [buildGraphAux] at h
    injection h with h'
    subst h'
    exact .inl hu
  | cons p rest ih =>
    intro acc g h u row hu
    obtain ⟨ln, nbrs⟩ := p
    rcases h1 : buildRow gd m ln nbrs [] with _ | row₀
    · simp only [buildGraphAux, h1] at h
      exact Option.noConfusion h
    simp only [buildGraphAux, h1] at h
    rcases ih _ g h u row hu with hacc | ⟨nbrs', hmem, hbr⟩
    · by_cases hun : u = ln
      · subst hun
        rw [lookupA_insertA_self] at hacc
        injection hacc with hacc'
        subst hacc'
        exact .inr ⟨nbrs, List.mem_cons_self _ _, h1⟩
      · rw [lookupA_insertA_ne _ _ _ _ hun] at hacc
        exact .inl hacc
    · exact .inr ⟨nbrs', List.mem_cons_of_mem _ hmem, hbr⟩

/-- Every row of the built graph comes from an entry of `neighbours` via
`buildRow` on an empty accumulator. -/
theorem buildGraph_lookup (gd : Geo R) (m : Map) (g : Graph R)
    (h : buildGraph gd m = some g) :
    ∀ u row, lookupA g u = some row →
      ∃ nbrs, (u, nbrs) ∈ m.neighbours ∧ buildRow gd m u nbrs [] = some row := by
  intro u row hu
  rcases buildGraphAux_lookup gd m m.neighbours [] g h u row hu with hacc | hgood
  · exact absurd hacc (by simp [lookupA])
  · exact hgood

theorem buildGraph_rowsNodup (gd : Geo R) (m : Map) (g : Graph R)
    (h : buildGraph gd m = some g) : RowsNodup g := by
  intro u row hu
  obtain ⟨nbrs, _, hbr⟩ := buildGraph_lookup gd m g h u row hu
  exact buildRow_nodup gd m u nbrs [] row hbr (by simp)

theorem buildGraph_nonneg (gd : Geo R) (m : Map) (g : Graph R)
    (hgd : ∀ x y, 0 ≤ gd x y) (h : buildGraph gd m = some g) : GraphNonneg g := by
  intro u row hu nw hnw
  obtain ⟨nbrs, _, hbr⟩ := buildGraph_lookup gd m g h u row hu
  rcases buildRow_mem gd m u nbrs [] row hbr nw hnw with hin | ⟨l1, l2, _, _, hw⟩
  · simp at hin
  · rw [hw]
    exact hgd _ _

/-- Every edge of the built graph is an edge listed in `neighbours`, with the
recomputed geodesic weight. -/
theorem buildGraph_edge (gd : Geo R) (m : Map) (g : Graph R)
    (h : buildGraph gd m = some g) :
    ∀ u row b w, lookupA g u = some row → lookupA row b = some w →
      ∃ nbrs l1 l2, (u, nbrs) ∈ m.neighbours ∧ b ∈ nbrs ∧
        lookupA m.locations u = some l1 ∧ lookupA m.locations b = some l2 ∧
        w = calculate_distance gd l1 l2 := by
  intro u row b w hu hb
  obtain ⟨nbrs, hmem, hbr⟩ := buildGraph_lookup gd m g h u row hu
  rcases buildRow_lookup gd m u nbrs [] row hbr b w hb with ⟨_, habs⟩ | ⟨hbm, l1, l2, h1, h2, hw⟩
  · exact absurd habs (by simp [lookupA])
  · exact ⟨nbrs, l1, l2, hmem, hbm, h1, h2, hw⟩

/-! ## `dijkstra`-level facts -/

/-- Conditional correctness of `Map.dijkstra`: any successful return carries a
non-empty path from `a` to `b` along listed `neighbours` edges whose summed
recomputed weight is exactly the returned cost. -/
theorem dijkstra_ok_spec (gd : Geo R) (m : Map) (a b : String) (fuel : ℕ)
    (path : List String) (c : Option R) (hgd : ∀ x y, 0 ≤ gd x y)
    (h : dijkstra gd m a b fuel = .ok path c) :
    ∃ g, buildGraph gd m = some g ∧ path ≠ [] ∧ path.head? = some a ∧
      path.getLast? = some b ∧ (∃ q, c = some q ∧ pathCost g path = some q) ∧
      List.Chain' (fun x y => ∃ nbrs, (x, nbrs) ∈ m.neighbours ∧ y ∈ nbrs) path := by
  rcases hg : buildGraph gd m with _ | g
  · rw [dijkstra, hg] at h
    exact absurd h (by simp)
  · rw [dijkstra, hg] at h
    obtain ⟨h1, h2, h3, h4, h5⟩ := dijkstraLoop_ok_spec g a b
      (buildGraph_rowsNodup gd m g hg) (buildGraph_nonneg gd m g hgd hg)
      fuel _ path c (dinv_init g a) h
    refine ⟨g, rfl, h1, h2, h3, h4, ?_⟩
    refine List.Chain'.imp ?_ h5
    intro x y hxy
    obtain ⟨row, w, hrow, hw⟩ := hxy
    obtain ⟨nbrs, _, _, hmem, hbm, _, _, _⟩ := buildGraph_edge gd m g hg x row y w hrow hw
    exact ⟨nbrs, hmem, hbm⟩

/-- `dijkstra(a, a)` pops `(0, a)` first, immediately hits the destination
check and returns `([a], 0)` — whether or not `a` is a known node. -/
theorem dijkstra_self (gd : Geo R) (m : Map) (g : Graph R) (a : String) (n : ℕ)
    (hg : buildGraph gd m = some g) :
    dijkstra gd m a a (n + 1) = .ok [a] (some 0) := by
  simp only [dijkstra, hg, dijkstraLoop]
  have hp : popMin [((0 : R), a)] = some ((0, a), []) := rfl
  simp only [hp, if_true]
  have hr : reconstruct [(a, (none : Option String))] a
      ([(a, (none : Option String))].length + 1) = some [a] := by
    simp only [reconstruct, lookupA_cons_eq rfl]
  simp only [hr]
  have hd : lookupA (initDist g a) a = some (some (0 : R)) := lookupA_insertA_self _ _ _
  simp only [hd]
  rfl

/-- When the frontier is empty the loop body is the implicit `return None`. -/
theorem dijkstraLoop_empty_frontier (g : Graph R) (dest : String)
    (dist : List (String × Option R)) (par : List (String × Option String)) (n : ℕ) :
    dijkstraLoop g dest ⟨dist, par, []⟩ (n + 1) = .noPath := by
  simp only [dijkstraLoop]
  rfl

/-- An unknown start that differs from the goal raises `KeyError` at
`graph[current_node]` on the very first iteration. -/
theorem dijkstra_unknown_start (gd : Geo R) (m : Map) (g : Graph R) (a b : String) (n : ℕ)
    (hg : buildGraph gd m = some g) (ha : lookupA g a = none) (hab : a ≠ b) :
    dijkstra gd m a b (n + 1) = .keyError := by
  simp only [dijkstra, hg, dijkstraLoop]
  have hp : popMin [((0 : R), a)] = some ((0, a), []) := rfl
  simp only [hp]
  rw [if_neg hab]
  have hd : lookupA (initDist g a) a = some (some (0 : R)) := lookupA_insertA_self _ _ _
  simp only [hd]
  rw [if_neg (by simp [gtInf])]
  simp only [ha]

/-! ## `addArrow` / `add_neighbours` characterisation -/

theorem keysA_addArrow (nbs : List (String × List String)) (a b : String)
    (ha : (lookupA nbs a).isSome) : keysA (addArrow nbs a b) = keysA nbs := by
  unfold addArrow
  by_cases hb : b ∈ (lookupA nbs a).getD []
  · rw [if_pos hb]
  · rw [if_neg hb]
    exact keysA_insertA_of_isSome _ _ _ ha

theorem lookupA_addArrow_ne (nbs : List (String × List String)) (a b u : String)
    (hu : u ≠ a) : lookupA (addArrow nbs a b) u = lookupA nbs u := by
  unfold addArrow
  by_cases hb : b ∈ (lookupA nbs a).getD []
  · rw [if_pos hb]
  · rw [if_neg hb]
    exact lookupA_insertA_ne _ _ _ _ hu

theorem lookupA_addArrow_self (nbs : List (String × List String)) (a b : String)
    (ha : (lookupA nbs a).isSome) :
    lookupA (addArrow nbs a b) a =
      some (if b ∈ (lookupA nbs a).getD [] then (lookupA nbs a).getD []
            else (lookupA nbs a).getD [] ++ [b]) := by
  unfold addArrow
  by_cases hb : b ∈ (lookupA nbs a).getD []
  · rw [if_pos hb, if_pos hb]
    rcases hla : lookupA nbs a with _ | la
    · rw [hla] at ha
      simp at ha
    · rfl
  · rw [if_neg hb, if_neg hb]
    exact lookupA_insertA_self _ _ _

theorem mem_addArrow (nbs : List (String × List String)) (a b : String)
    (ha : (lookupA nbs a).isSome) (u v : String) :
    v ∈ (lookupA (addArrow nbs a b) u).getD [] ↔
      (v ∈ (lookupA nbs u).getD [] ∨ (u = a ∧ v = b)) := by
  by_cases hu : u = a
  · subst hu
    rw [lookupA_addArrow_self nbs u b ha]
    by_cases hb : b ∈ (lookupA nbs u).getD []
    · rw [if_pos hb]
      simp only [Option.getD_some]
      constructor
      · exact fun h => .inl h
      · rintro (h | ⟨-, hv⟩)
        · exact h
        · rw [hv]
          exact hb
    · rw [if_neg hb]
      simp only [Option.getD_some, List.mem_append, List.mem_singleton]
      constructor
      · rintro (h | h)
        · exact .inl h
        · exact .inr ⟨by trivial, h⟩
      · rintro (h | ⟨-, hv⟩)
        · exact .inl h
        · exact .inr hv
  · rw [lookupA_addArrow_ne nbs a b u hu]
    simp [hu]

theorem isSome_addArrow (nbs : List (String × List String)) (a b u : String)
    (ha : (lookupA nbs a).isSome) :
    (lookupA (addArrow nbs a b) u).isSome = (lookupA nbs u).isSome := by
  by_cases hu : u = a
  · subst hu
    rw [lookupA_addArrow_self nbs u b ha, ha]
    rfl
  · rw [lookupA_addArrow_ne nbs a b u hu]

/-- Success case of `add_neighbours`: the resulting map, with its adjacency
characterised. -/
theorem add_neighbours_ok (m : Map) (l1 l2 : Location)
    (h1 : (lookupA m.neighbours l1.name).isSome)
    (h2 : (lookupA m.neighbours l2.name).isSome) :
    add_neighbours m l1 l2 =
      .ok { m with neighbours := addArrow (addArrow m.neighbours l1.name l2.name)
                      l2.name l1.name } := by
  unfold add_neighbours
  rw [if_neg]
  simp only [Bool.or_eq_true, Option.isNone_iff_eq_none]
  push_neg
  constructor
  · intro h
    rw [h] at h1
    simp at h1
  · intro h
    rw [h] at h2
    simp at h2

theorem add_neighbours_error (m : Map) (l1 l2 : Location)
    (h : (lookupA m.neighbours l1.name).isNone ∨ (lookupA m.neighbours l2.name).isNone) :
    add_neighbours m l1 l2 = .error "Nonexistent location for adding neighbours" := by
  unfold add_neighbours
  rw [if_pos]
  rcases h with h | h
  · simp [h]
  · simp [h]

/-- Adjacency of the successor map of `add_neighbours`. -/
theorem add_neighbours_memNb (m : Map) (l1 l2 : Location) {m' : Map}
    (h1 : (lookupA m.neighbours l1.name).isSome)
    (h2 : (lookupA m.neighbours l2.name).isSome)
    (h : add_neighbours m l1 l2 = .ok m') :
    m'.name = m.name ∧ m'.locations = m.locations ∧
    keysA m'.neighbours = keysA m.neighbours ∧
    (∀ u v, memNb m' u v ↔
      (memNb m u v ∨ (u = l1.name ∧ v = l2.name) ∨ (u = l2.name ∧ v = l1.name))) := by
  rw [add_neighbours_ok m l1 l2 h1 h2] at h
  injection h with h'
  subst h'
  have h2' : (lookupA (addArrow m.neighbours l1.name l2.name) l2.name).isSome := by
    rw [isSome_addArrow _ _ _ _ h1]
    exact h2
  refine ⟨rfl, rfl, ?_, ?_⟩
  · rw [keysA_addArrow _ _ _ h2', keysA_addArrow _ _ _ h1]
  · intro u v
    show v ∈ (lookupA (addArrow (addArrow m.neighbours l1.name l2.name)
        l2.name l1.name) u).getD [] ↔ _
    rw [mem_addArrow _ _ _ h2' u v, mem_addArrow _ _ _ h1 u v]
    tauto

/-! ## Invariants of API-reachable maps -/

/-- The invariant maintained by `add_location`, `add_neighbours` and
`connect_nearest_loc` starting from a fresh `Map`. -/
structure MapInv (m : Map) : Prop where
  locKey : ∀ p ∈ m.locations, p.2.name = p.1
  ndLoc : (keysA m.locations).Nodup
  ndNb : (keysA m.neighbours).Nodup
  keysEq : ∀ k, (lookupA m.neighbours k).isSome ↔ (lookupA m.locations k).isSome
  symm : ∀ u v, memNb m u v ↔ memNb m v u

theorem mapInv_empty (nm : String) : MapInv (Map.mk nm [] []) := by
  refine ⟨?_, ?_, ?_, ?_, ?_⟩
  · intro p hp
    simp at hp
  · simp
  · simp
  · intro k
    simp [lookupA]
  · intro u v
    simp [memNb, lookupA]

theorem mapInv_add_location {m : Map} (hinv : MapInv m) (loc : Location) :
    MapInv (add_location m loc) := by
  unfold add_location
  by_cases hs : (lookupA m.neighbours loc.name).isSome
  · rw [if_pos hs]
    refine ⟨?_, ?_, hinv.ndNb, ?_, hinv.symm⟩
    · intro p hp
      rcases mem_insertA hp with heq | hold
      · rw [heq]
      · exact hinv.locKey p hold
    · exact nodup_keysA_insertA _ _ hinv.ndLoc
    · intro k
      rw [lookupA_isSome_insertA]
      constructor
      · intro h
        by_cases hk : k = loc.name
        · exact .inl hk
        · exact .inr ((hinv.keysEq k).mp h)
      · rintro (h | h)
        · rw [h]
          exact hs
        · exact (hinv.keysEq k).mpr h
  · rw [if_neg hs]
    have hnone : lookupA m.neighbours loc.name = none := by
      rcases h : lookupA m.neighbours loc.name with _ | l
      · rfl
      · rw [h] at hs
        simp at hs
    have hlocnone : lookupA m.locations loc.name = none := by
      rcases h : lookupA m.locations loc.name with _ | l
      · rfl
      · exact absurd ((hinv.keysEq loc.name).mpr (by rw [h]; rfl)) hs
    refine ⟨?_, ?_, ?_, ?_, ?_⟩
    · intro p hp
      rcases mem_insertA hp with heq | hold
      · rw [heq]
      · exact hinv.locKey p hold
    · exact nodup_keysA_insertA _ _ hinv.ndLoc
    · exact nodup_keysA_insertA _ _ hinv.ndNb
    · intro k
      rw [lookupA_isSome_insertA, lookupA_isSome_insertA]
      exact or_congr_right (hinv.keysEq k)
    · intro u v
      show v ∈ (lookupA (insertA m.neighbours loc.name []) u).getD [] ↔
        u ∈ (lookupA (insertA m.neighbours loc.name []) v).getD []
      have hchar : ∀ x y : String,
          y ∈ (lookupA (insertA m.neighbours loc.name []) x).getD [] ↔ memNb m x y := by
        intro x y
        by_cases hx : x = loc.name
        · subst hx
          rw [lookupA_insertA_self]
          show y ∈ ([] : List String) ↔ _
          rw [memNb]
          rw [hnone]
          simp
        · rw [lookupA_insertA_ne _ _ _ _ hx]
          exact Iff.rfl
      rw [hchar u v, hchar v u]
      exact hinv.symm u v

theorem mapInv_add_neighbours {m m' : Map} (hinv : MapInv m) (l1 l2 : Location)
    (h : add_neighbours m l1 l2 = .ok m') : MapInv m' := by
  by_cases h1 : (lookupA m.neighbours l1.name).isSome
  · by_cases h2 : (lookupA m.neighbours l2.name).isSome
    · obtain ⟨hname, hloc, hkeys, hmem⟩ := add_neighbours_memNb m l1 l2 h1 h2 h
      have hisSome : ∀ k, (lookupA m'.neighbours k).isSome ↔
          (lookupA m.neighbours k).isSome := by
        intro k
        rw [← mem_keysA_iff, ← mem_keysA_iff, hkeys]
      refine ⟨?_, ?_, ?_, ?_, ?_⟩
      · rw [hloc]
        exact hinv.locKey
      · rw [hloc]
        exact hinv.ndLoc
      · rw [hkeys]
        exact hinv.ndNb
      · intro k
        rw [hisSome k, hloc]
        exact hinv.keysEq k
      · intro u v
        rw [hmem u v, hmem v u]
        constructor
        · rintro (h | ⟨ha, hb⟩ | ⟨ha, hb⟩)
          · exact .inl ((hinv.symm u v).mp h)
          · exact .inr (.inr ⟨hb, ha⟩)
          · exact .inr (.inl ⟨hb, ha⟩)
        · rintro (h | ⟨ha, hb⟩ | ⟨ha, hb⟩)
          · exact .inl ((hinv.symm v u).mp h)
          · exact .inr (.inr ⟨hb, ha⟩)
          · exact .inr (.inl ⟨hb, ha⟩)
    · have h2a : (lookupA m.neighbours l2.name).isNone := by
        rw [Option.isNone_iff_eq_none]
        exact Option.not_isSome_iff_eq_none.mp h2
      rw [add_neighbours_error m l1 l2 (.inr h2a)] at h
      exact Except.noConfusion h
  · have h1a : (lookupA m.neighbours l1.name).isNone := by
      rw [Option.isNone_iff_eq_none]
      exact Option.not_isSome_iff_eq_none.mp h1
    rw [add_neighbours_error m l1 l2 (.inl h1a)] at h
    exact Except.noConfusion h

theorem mapInv_connectInner (loc : Location) :
    ∀ (l : List (R × String)) (m : Map), MapInv m → MapInv (connectInner loc m l).1 := by
  intro l
  induction l with
  | nil =>
    intro m h
    exact h
  | cons p rest ih =>
    intro m h
    obtain ⟨d, other⟩ := p
    rcases ho : lookupA m.locations other with _ | oloc
    · simpa only [connectInner, ho] using h
    · rcases han : add_neighbours m loc oloc with e | m'
      · simpa only [connectInner, ho, han] using h
      · have hrec := ih m' (mapInv_add_neighbours h loc oloc han)
        simpa only [connectInner, ho, han] using hrec

theorem mapInv_connectOuter (gd : Geo R) (k : ℕ) :
    ∀ (names : List String) (m : Map), MapInv m → MapInv (connectOuter gd k m names).1 := by
  intro names
  induction names with
  | nil =>
    intro m h
    exact h
  | cons name rest ih =>
    intro m h
    rcases ho : lookupA m.locations name with _ | loc
    · simpa only [connectOuter, ho] using h
    · rcases hi : connectInner loc m
        (((m.locations.filterMap (fun p =>
          if p.1 = name then none
          else some (calculate_distance gd loc p.2, p.1))).mergeSort
            (fun a b => a.1 ≤ b.1)).take k) with ⟨m', e⟩
      have hm' : MapInv m' := by
        have h2 := mapInv_connectInner loc
          (((m.locations.filterMap (fun p =>
            if p.1 = name then none
            else some (calculate_distance gd loc p.2, p.1))).mergeSort
              (fun a b => a.1 ≤ b.1)).take k) m h
        rw [hi] at h2
        exact h2
      rcases e with _ | err
      · have hrec := ih m' hm'
        simpa only [connectOuter, ho, hi] using hrec
      · simpa only [connectOuter, ho, hi] using hm'

theorem mapInv_connect_nearest_loc (gd : Geo R) {m : Map} (hinv : MapInv m) (k : ℤ) :
    MapInv (connect_nearest_loc gd m k).1 := by
  simp only [connect_nearest_loc]
  exact mapInv_connectOuter gd _ _ m hinv

/-- The raise-free boolean reading of `Map.check_invariants` holds on every
map satisfying the invariant. -/
theorem check_invariants_of_inv {m : Map} (hinv : MapInv m) : check_invariants m = true := by
  unfold check_invariants
  rw [Bool.and_eq_true]
  constructor
  · rw [List.all_eq_true]
    intro p hp
    simpa using (hinv.locKey p hp).symm
  · rw [List.all_eq_true]
    intro p hp
    rw [Bool.and_eq_true]
    have hpk : lookupA m.neighbours p.1 = some p.2 := by
      obtain ⟨k, v⟩ := p
      exact mem_lookupA_nodup hinv.ndNb hp
    constructor
    · simp only [decide_eq_true_eq]
      rw [mem_keysA_iff]
      exact (hinv.keysEq p.1).mp (by rw [hpk]; rfl)
    · rw [List.all_eq_true]
      intro n2 hn2
      have hmem : memNb m p.1 n2 := by
        rw [memNb, hpk]
        exact hn2
      have hmem' : memNb m n2 p.1 := (hinv.symm p.1 n2).mp hmem
      have hn2some : (lookupA m.neighbours n2).isSome := by
        rw [memNb] at hmem'
        rcases hl : lookupA m.neighbours n2 with _ | l
        · rw [hl] at hmem'
          simp at hmem'
        · rfl
      rw [Bool.and_eq_true]
      constructor
      · simp only [decide_eq_true_eq]
        rw [mem_keysA_iff]
        exact hn2some
      · rcases hl : lookupA m.neighbours n2 with _ | l
        · rw [hl] at hn2some
          simp at hn2some
        · rw [memNb, hl] at hmem'
          simpa using hmem'

/-! ## Sequences of API calls -/

/-- One mutating call of the public `Map` API.  A raised `ValueError` from
`add_neighbours` leaves the map unchanged; `connect_nearest_loc` keeps the
mutations made before a raise. -/
inductive MapOp (R : Type) where
  | addLoc (loc : Location)
  | addNbr (l1 l2 : Location)
  | connectNearest (gd : Geo R) (k : ℤ)

def applyOp (m : Map) : MapOp R → Map
  | .addLoc loc => add_location m loc
  | .addNbr l1 l2 =>
    match add_neighbours m l1 l2 with
    | .ok m' => m'
    | .error _ => m
  | .connectNearest gd k => (connect_nearest_loc gd m k).1

def applyOps (m : Map) (ops : List (MapOp R)) : Map := ops.foldl applyOp m

theorem mapInv_applyOp {m : Map} (hinv : MapInv m) (op : MapOp R) :
    MapInv (applyOp m op) := by
  cases op with
  | addLoc loc => exact mapInv_add_location hinv loc
  | addNbr l1 l2 =>
    simp only [applyOp]
    rcases h : add_neighbours m l1 l2 with e | m'
    · exact hinv
    · exact mapInv_add_neighbours hinv l1 l2 h
  | connectNearest gd k => exact mapInv_connect_nearest_loc gd hinv k

theorem mapInv_applyOps (nm : String) (ops : List (MapOp R)) :
    MapInv (applyOps (Map.mk nm [] []) ops) := by
  suffices h : ∀ (ops : List (MapOp R)) (m : Map), MapInv m → MapInv (applyOps m ops) from
    h ops _ (mapInv_empty nm)
  intro ops
  induction ops with
  | nil =>
    intro m h
    exact h
  | cons op rest ih =>
    intro m h
    exact ih _ (mapInv_applyOp h op)

/-! ## Counting neighbours (for repeated insertion) -/

theorem count_addArrow_self (nbs : List (String × List String)) (a b : String)
    (ha : (lookupA nbs a).isSome) :
    ((lookupA (addArrow nbs a b) a).getD []).count b =
      if b ∈ (lookupA nbs a).getD [] then ((lookupA nbs a).getD []).count b
      else ((lookupA nbs a).getD []).count b + 1 := by
  rw [lookupA_addArrow_self nbs a b ha]
  by_cases hb : b ∈ (lookupA nbs a).getD []
  · rw [if_pos hb, if_pos hb]
    rfl
  · rw [if_neg hb, if_neg hb]
    simp [List.count_append]

theorem addArrow_noop (nbs : List (String × List String)) (a b : String)
    (hb : b ∈ (lookupA nbs a).getD []) : addArrow nbs a b = nbs := by
  unfold addArrow
  rw [if_pos hb]

/-! ## `nearest_node` linear scan -/

theorem nearest_fold_spec (pd : Geo R) (lat lon : ℚ) :
    ∀ (l : List (String × Location)) (best : String × R),
      ((l.foldl (fun (best : String × R) q =>
          if pd (lat, lon) (q.2.lat, q.2.long) < best.2
          then (q.1, pd (lat, lon) (q.2.lat, q.2.long)) else best) best).2 ≤ best.2) ∧
      ((l.foldl (fun (best : String × R) q =>
          if pd (lat, lon) (q.2.lat, q.2.long) < best.2
          then (q.1, pd (lat, lon) (q.2.lat, q.2.long)) else best) best) = best ∨
        ∃ p ∈ l, (l.foldl (fun (best : String × R) q =>
          if pd (lat, lon) (q.2.lat, q.2.long) < best.2
          then (q.1, pd (lat, lon) (q.2.lat, q.2.long)) else best) best)
            = (p.1, pd (lat, lon) (p.2.lat, p.2.long))) ∧
      (∀ q ∈ l, (l.foldl (fun (best : String × R) q =>
          if pd (lat, lon) (q.2.lat, q.2.long) < best.2
          then (q.1, pd (lat, lon) (q.2.lat, q.2.long)) else best) best).2
            ≤ pd (lat, lon) (q.2.lat, q.2.long)) := by
  intro l
  induction l with
  | nil =>
    intro best
    refine ⟨le_refl _, .inl rfl, ?_⟩
    intro q hq
    simp at hq
  | cons a t ih =>
    intro best
    simp only [List.foldl_cons]
    rcases ih (if pd (lat, lon) (a.2.lat, a.2.long) < best.2
        then (a.1, pd (lat, lon) (a.2.lat, a.2.long)) else best) with ⟨ih1, ih2, ih3⟩
    have hstep : (if pd (lat, lon) (a.2.lat, a.2.long) < best.2
        then (a.1, pd (lat, lon) (a.2.lat, a.2.long)) else best).2 ≤ best.2 := by
      by_cases hc : pd (lat, lon) (a.2.lat, a.2.long) < best.2
      · rw [if_pos hc]
        exact le_of_lt hc
      · rw [if_neg hc]
    have hstepa : (if pd (lat, lon) (a.2.lat, a.2.long) < best.2
        then (a.1, pd (lat, lon) (a.2.lat, a.2.long)) else best).2
          ≤ pd (lat, lon) (a.2.lat, a.2.long) := by
      by_cases hc : pd (lat, lon) (a.2.lat, a.2.long) < best.2
      · rw [if_pos hc]
      · rw [if_neg hc]
        exact le_of_not_lt hc
    refine ⟨le_trans ih1 hstep, ?_, ?_⟩
    · rcases ih2 with h | ⟨p, hp, hfold⟩
      · by_cases hc : pd (lat, lon) (a.2.lat, a.2.long) < best.2
        · exact .inr ⟨a, List.mem_cons_self _ _, h.trans (if_pos hc)⟩
        · exact .inl (h.trans (if_neg hc))
      · exact .inr ⟨p, List.mem_cons_of_mem _ hp, hfold⟩
    · intro q hq
      rcases List.mem_cons.mp hq with h | h
      · rw [h]
        exact le_trans ih1 hstepa
      · exact ih3 q h

/-- The linear scan of `nearest_node` returns a node whose `pd`-distance to the
query is at most that of every stored node. -/
theorem nearest_node_min (pd : Geo R) (m : Map) (lat lon : ℚ)
    (hne : m.locations ≠ []) :
    ∃ nm loc, nearest_node pd m lat lon = some nm ∧ (nm, loc) ∈ m.locations ∧
      ∀ q ∈ m.locations,
        pd (lat, lon) (loc.lat, loc.long) ≤ pd (lat, lon) (q.2.lat, q.2.long) := by
  rcases hl : m.locations with _ | ⟨p, rest⟩
  · exact absurd hl hne
  obtain ⟨h1, h2, h3⟩ := nearest_fold_spec pd lat lon rest
    (p.1, pd (lat, lon) (p.2.lat, p.2.long))
  have hform : ∃ pr, (rest.foldl (fun (best : String × R) q =>
      if pd (lat, lon) (q.2.lat, q.2.long) < best.2
      then (q.1, pd (lat, lon) (q.2.lat, q.2.long)) else best)
        (p.1, pd (lat, lon) (p.2.lat, p.2.long)))
        = (pr.1, pd (lat, lon) (pr.2.lat, pr.2.long)) ∧ pr ∈ p :: rest := by
    rcases h2 with h | ⟨pr, hpr, hfold⟩
    · exact ⟨p, h, List.mem_cons_self _ _⟩
    · exact ⟨pr, hfold, List.mem_cons_of_mem _ hpr⟩
  obtain ⟨pr, hfold, hmem⟩ := hform
  refine ⟨pr.1, pr.2, ?_, ?_, ?_⟩
  · simp only [nearest_node, hl]
    rw [hfold]
  · simpa using hmem
  · intro q hq
    have hple : pd (lat, lon) (pr.2.lat, pr.2.long) ≤ pd (lat, lon) (p.2.lat, p.2.long) := by
      have := h1
      rw [hfold] at this
      exact this
    rcases List.mem_cons.mp hq with h | h
    · rw [h]
      exact hple
    · have := h3 q h
      rw [hfold] at this
      exact this

/-! ## Concrete fixtures used in counterexamples and witnesses -/

/-- Integer-valued stand-in for the abstracted geodesic function, used to run
the model on concrete inputs: 0 between equal coordinate pairs, 1 otherwise
(symmetric, non-negative). -/
def gdUnit : Geo ℤ := fun p q => if p = q then 0 else 1

theorem gdUnit_nonneg : ∀ x y, 0 ≤ gdUnit x y := by
  intro x y
  unfold gdUnit
  split
  · exact le_refl 0
  · exact zero_le_one

theorem gdUnit_symm : ∀ x y, gdUnit x y = gdUnit y x := by
  intro x y
  unfold gdUnit
  by_cases h : x = y
  · rw [if_pos h, if_pos h.symm]
  · rw [if_neg h, if_neg (fun hq => h hq.symm)]

def locA : Location := ⟨"A", 0, 0⟩
def locB : Location := ⟨"B", 0, 1⟩
def locC : Location := ⟨"C", 0, 3⟩

/-- A map with the single known node `A`. -/
def oneNodeMap : Map := ⟨"One", [("A", locA)], [("A", [])]⟩

/-- Two known nodes with no edge between them. -/
def twoIslandMap : Map := ⟨"Two", [("A", locA), ("B", locB)], [("A", []), ("B", [])]⟩

/-- The path graph `A - B - C`. -/
def lineMap : Map := ⟨"Line", [("A", locA), ("B", locB), ("C", locC)],
  [("A", ["B"]), ("B", ["A", "C"]), ("C", ["B"])]⟩

/-- `bfs(a, a)` dequeues `a`, immediately matches the destination and returns
the singleton path. -/
theorem bfs_self (m : Map) (a : String) (n : ℕ) : bfs m a a (n + 1) = .found [a] := by
  simp only [bfs, bfsLoop]
  have hr : reconstruct [(a, (none : Option String))] a
      ([(a, (none : Option String))].length + 1) = some [a] := by
    simp only [reconstruct, lookupA_cons_eq rfl]
  simp only [hr]
  rfl

/-- The graph `buildGraph` computes from `lineMap` under `gdUnit`. -/
def lineGraph : Graph ℤ :=
  [("A", [("B", 1)]), ("B", [("A", 1), ("C", 1)]), ("C", [("B", 1)])]

/-- The graph `buildGraph` computes from `oneNodeMap` under `gdUnit`. -/
def oneGraph : Graph ℤ := [("A", [])]

/-! ## Claims -/

/-- Claim C2 counterexample: with the single known node `A`, the query
`dijkstra("X", "A")` does not return a not-found result — it raises `KeyError`
at `graph[current_node]` (line 214), modelled as the `keyError` outcome. -/
theorem dijkstra_unknown_start_raises_cx :
    dijkstra gdUnit oneNodeMap "X" "A" 5 = .keyError ∧
    dijkstra gdUnit oneNodeMap "X" "A" 5 ≠ .noPath ∧
    dijkstra gdUnit oneNodeMap "X" "A" 5 ≠ .ok [] none := by
  refine ⟨by decide, by decide, by decide⟩

/-- Claim C2 as amended: `Map.dijkstra` has no unknown-node guard.  With an
unknown start differing from the goal it raises `KeyError`; with a known start
and unknown goal the frontier drains and it returns `None`; with start = goal
it returns `([a], 0)` even when `a` is unknown to the graph. -/
theorem dijkstra_unknown_node_behaviour :
    (∀ (gd : Geo R) (m : Map) (g : Graph R) (a b : String) (n : ℕ),
      buildGraph gd m = some g → lookupA g a = none → a ≠ b →
      dijkstra gd m a b (n + 1) = .keyError) ∧
    dijkstra gdUnit oneNodeMap "A" "X" 5 = .noPath ∧
    (∀ (gd : Geo R) (m : Map) (g : Graph R) (a : String) (n : ℕ),
      buildGraph gd m = some g → dijkstra gd m a a (n + 1) = .ok [a] (some 0)) := by
  refine ⟨?_, by decide, ?_⟩
  · intro gd m g a b n hg ha hab
    exact dijkstra_unknown_start gd m g a b n hg ha hab
  · intro gd m g a n hg
    exact dijkstra_self gd m g a n hg

/-- Witness for C2 (amended), discharging each hypothesis at concrete inputs:
unknown start `X` vs goal `A` raises; known start `A` vs unknown goal `X`
returns `None`; `dijkstra("X", "X")` returns `(["X"], 0)`. -/
theorem dijkstra_unknown_node_behaviour_witness :
    (buildGraph gdUnit oneNodeMap = some oneGraph ∧ lookupA oneGraph "X" = none ∧
      ("X" : String) ≠ "A" ∧ dijkstra gdUnit oneNodeMap "X" "A" 5 = .keyError) ∧
    dijkstra gdUnit oneNodeMap "A" "X" 5 = .noPath ∧
    (buildGraph gdUnit oneNodeMap = some oneGraph ∧
      dijkstra gdUnit oneNodeMap "X" "X" 5 = .ok ["X"] (some 0)) :=
  ⟨⟨by decide, by decide, by decide,
    (dijkstra_unknown_node_behaviour (R := ℤ)).1 gdUnit oneNodeMap oneGraph "X" "A" 4
      (by decide) (by decide) (by decide)⟩,
   (dijkstra_unknown_node_behaviour (R := ℤ)).2.1,
   ⟨by decide,
    (dijkstra_unknown_node_behaviour (R := ℤ)).2.2 gdUnit oneNodeMap oneGraph "X" 4
      (by decide)⟩⟩

/-- Claim C3 counterexample: on the two-node edgeless graph, `dijkstra("A", "B")`
does not return an empty path with infinite cost — its frontier empties and the
function falls off the loop, returning Python `None` (the `noPath` outcome,
which carries no pair at all). -/
theorem dijkstra_disconnected_returns_none_cx :
    dijkstra gdUnit twoIslandMap "A" "B" 5 = .noPath ∧
    dijkstra gdUnit twoIslandMap "A" "B" 5 ≠ .ok [] none := by
  refine ⟨by decide, by decide⟩

/-- Claim C3 as amended: when the frontier empties without reaching the goal
the loop exits and `dijkstra` returns Python `None` (the implicit return), not
a pair `([], float("inf"))`; on the concrete disconnected pair this is what
happens. -/
theorem dijkstra_empty_frontier_none :
    (∀ (g : Graph R) (dest : String) (dist : List (String × Option R))
        (par : List (String × Option String)) (n : ℕ),
      dijkstraLoop g dest ⟨dist, par, []⟩ (n + 1) = .noPath) ∧
    dijkstra gdUnit twoIslandMap "A" "B" 5 = .noPath :=
  ⟨fun g dest dist par n => dijkstraLoop_empty_frontier g dest dist par n, by decide⟩

/-- Claim C4 counterexample: `add_neighbours` on a fresh map whose endpoints
were never added is not a silent no-op — it raises
`ValueError("Nonexistent location for adding neighbours")`. -/
theorem add_neighbours_missing_endpoint_cx :
    add_neighbours (Map.mk "Empty" [] []) locA locB =
      .error "Nonexistent location for adding neighbours" ∧
    add_neighbours (Map.mk "Empty" [] []) locA locB ≠ .ok (Map.mk "Empty" [] []) := by
  refine ⟨by decide, by decide⟩

/-- Claim C4 as amended: adding an edge whose endpoints are not both present
raises `ValueError` (line 142) instead of silently leaving the graph
unchanged. -/
theorem add_neighbours_missing_endpoint_raises (m : Map) (l1 l2 : Location)
    (h : (lookupA m.neighbours l1.name).isNone ∨ (lookupA m.neighbours l2.name).isNone) :
    add_neighbours m l1 l2 = .error "Nonexistent location for adding neighbours" :=
  add_neighbours_error m l1 l2 h

/-- Witness for C4 (amended) on the empty map. -/
theorem add_neighbours_missing_endpoint_raises_witness :
    ((lookupA (Map.mk "Empty" [] []).neighbours locA.name).isNone ∨
      (lookupA (Map.mk "Empty" [] []).neighbours locB.name).isNone) ∧
    add_neighbours (Map.mk "Empty" [] []) locA locB =
      .error "Nonexistent location for adding neighbours" :=
  ⟨.inl (by decide),
   add_neighbours_missing_endpoint_raises (Map.mk "Empty" [] []) locA locB (.inl (by decide))⟩

/-- Claim C5: after a bidirectional insertion `add_neighbours(u, v)` on
existing nodes, each node appears in the other's neighbour list, the cost of
traversing the edge (the recomputed geodesic weight) is equal in both
directions, and the insertion is idempotent with each name appearing exactly
once (given they appeared at most once before, as in every API-reachable
map). -/
theorem add_neighbours_bidirectional_idempotent (gd : Geo R) (m : Map) (u v : Location)
    (hsym : ∀ x y, gd x y = gd y x)
    (hu : (lookupA m.neighbours u.name).isSome)
    (hv : (lookupA m.neighbours v.name).isSome)
    (hcu : ((lookupA m.neighbours u.name).getD []).count v.name ≤ 1)
    (hcv : ((lookupA m.neighbours v.name).getD []).count u.name ≤ 1) :
    ∃ m', add_neighbours m u v = .ok m' ∧
      memNb m' u.name v.name ∧ memNb m' v.name u.name ∧
      calculate_distance gd u v = calculate_distance gd v u ∧
      add_neighbours m' u v = .ok m' ∧
      ((lookupA m'.neighbours u.name).getD []).count v.name = 1 ∧
      ((lookupA m'.neighbours v.name).getD []).count u.name = 1 := by
  have hok := add_neighbours_ok m u v hu hv
  obtain ⟨hname, hloc, hks, hmem⟩ := add_neighbours_memNb m u v hu hv hok
  set m' := ({ m with neighbours := (addArrow (addArrow m.neighbours u.name v.name) v.name u.name) } : Map) with hm'
  have hmemuv : memNb m' u.name v.name := (hmem u.name v.name).mpr (.inr (.inl ⟨rfl, rfl⟩))
  have hmemvu : memNb m' v.name u.name := (hmem v.name u.name).mpr (.inr (.inr ⟨rfl, rfl⟩))
  have hu' : (lookupA m'.neighbours u.name).isSome := by
    rw [← mem_keysA_iff, hks, mem_keysA_iff]
    exact hu
  have hv' : (lookupA m'.neighbours v.name).isSome := by
    rw [← mem_keysA_iff, hks, mem_keysA_iff]
    exact hv
  have hidem : add_neighbours m' u v = .ok m' := by
    rw [add_neighbours_ok m' u v hu' hv', addArrow_noop m'.neighbours u.name v.name hmemuv,
      addArrow_noop m'.neighbours v.name u.name hmemvu]
  have hmid : (lookupA (addArrow m.neighbours u.name v.name) v.name).isSome := by
    rw [isSome_addArrow _ _ _ _ hu]
    exact hv
  have hcnt2 : ((lookupA m'.neighbours v.name).getD []).count u.name = 1 := by
    show ((lookupA (addArrow (addArrow m.neighbours u.name v.name) v.name u.name)
      v.name).getD []).count u.name = 1
    rw [count_addArrow_self _ v.name u.name hmid]
    by_cases huv : u.name = v.name
    · rw [← huv]
      have hmm : u.name ∈ (lookupA (addArrow m.neighbours u.name u.name) u.name).getD [] :=
        (mem_addArrow m.neighbours u.name u.name hu u.name u.name).mpr (.inr ⟨rfl, rfl⟩)
      rw [if_pos hmm]
      rw [count_addArrow_self _ u.name u.name hu]
      have hcu2 : ((lookupA m.neighbours u.name).getD []).count u.name ≤ 1 := by
        rw [← huv] at hcu
        exact hcu
      by_cases hin : u.name ∈ (lookupA m.neighbours u.name).getD []
      · rw [if_pos hin]
        have hpos := List.count_pos_iff.mpr hin
        omega
      · rw [if_neg hin, List.count_eq_zero.mpr hin]
    · have hlook : lookupA (addArrow m.neighbours u.name v.name) v.name =
          lookupA m.neighbours v.name :=
        lookupA_addArrow_ne _ _ _ _ (fun h => huv h.symm)
      rw [hlook]
      by_cases hin : u.name ∈ (lookupA m.neighbours v.name).getD []
      · rw [if_pos hin]
        have hpos := List.count_pos_iff.mpr hin
        omega
      · rw [if_neg hin, List.count_eq_zero.mpr hin]
  have hcnt1 : ((lookupA m'.neighbours u.name).getD []).count v.name = 1 := by
    by_cases huv : u.name = v.name
    · rw [huv]
      rw [huv] at hcnt2
      exact hcnt2
    · show ((lookupA (addArrow (addArrow m.neighbours u.name v.name) v.name u.name)
        u.name).getD []).count v.name = 1
      rw [lookupA_addArrow_ne _ _ _ _ huv]
      rw [count_addArrow_self _ u.name v.name hu]
      by_cases hin : v.name ∈ (lookupA m.neighbours u.name).getD []
      · rw [if_pos hin]
        have hpos : 0 < ((lookupA m.neighbours u.name).getD []).count v.name :=
          List.count_pos_iff.mpr hin
        omega
      · rw [if_neg hin, List.count_eq_zero.mpr hin]
  exact ⟨m', hok, hmemuv, hmemvu, hsym _ _, hidem, hcnt1, hcnt2⟩

/-- Witness for C5 on the two-node map with no prior edge. -/
theorem add_neighbours_bidirectional_idempotent_witness :
    ((∀ x y, gdUnit x y = gdUnit y x) ∧
      (lookupA twoIslandMap.neighbours locA.name).isSome ∧
      (lookupA twoIslandMap.neighbours locB.name).isSome ∧
      ((lookupA twoIslandMap.neighbours locA.name).getD []).count locB.name ≤ 1 ∧
      ((lookupA twoIslandMap.neighbours locB.name).getD []).count locA.name ≤ 1) ∧
    (∃ m', add_neighbours twoIslandMap locA locB = .ok m' ∧
      memNb m' locA.name locB.name ∧ memNb m' locB.name locA.name ∧
      calculate_distance gdUnit locA locB = calculate_distance gdUnit locB locA ∧
      add_neighbours m' locA locB = .ok m' ∧
      ((lookupA m'.neighbours locA.name).getD []).count locB.name = 1 ∧
      ((lookupA m'.neighbours locB.name).getD []).count locA.name = 1) :=
  ⟨⟨gdUnit_symm, by decide, by decide, by decide, by decide⟩,
   add_neighbours_bidirectional_idempotent gdUnit twoIslandMap locA locB
     gdUnit_symm (by decide) (by decide) (by decide) (by decide)⟩

/-- Claim C6: every successful path returned by `Map.dijkstra` is an ordered
sequence of node identifiers of strictly positive length whose consecutive
elements are connected by an existing edge of the graph (an entry of
`neighbours`), and whose reconstructed first element equals the start node.
(The reconstruction provably always starts at the start node, so the
guard demanded by the spec is never needed.) -/
theorem dijkstra_path_well_formed (gd : Geo R) (m : Map) (a b : String)
    (fuel : ℕ) (path : List String) (c : Option R)
    (hgd : ∀ x y, 0 ≤ gd x y) (h : dijkstra gd m a b fuel = .ok path c) :
    path ≠ [] ∧ path.head? = some a ∧ path.getLast? = some b ∧
    List.Chain' (fun x y => ∃ nbrs, (x, nbrs) ∈ m.neighbours ∧ y ∈ nbrs) path := by
  obtain ⟨g, hg, h1, h2, h3, h4, h5⟩ := dijkstra_ok_spec gd m a b fuel path c hgd h
  exact ⟨h1, h2, h3, h5⟩

/-- Witness for C6 on the path graph `A - B - C`. -/
theorem dijkstra_path_well_formed_witness :
    (∀ x y, 0 ≤ gdUnit x y) ∧
    dijkstra gdUnit lineMap "A" "C" 5 = .ok ["A", "B", "C"] (some 2) ∧
    (["A", "B", "C"] ≠ [] ∧ ["A", "B", "C"].head? = some "A" ∧
      ["A", "B", "C"].getLast? = some "C" ∧
      List.Chain' (fun x y => ∃ nbrs, (x, nbrs) ∈ lineMap.neighbours ∧ y ∈ nbrs)
        ["A", "B", "C"]) :=
  ⟨gdUnit_nonneg, by decide,
   dijkstra_path_well_formed gdUnit lineMap "A" "C" 5 ["A", "B", "C"] (some 2)
     gdUnit_nonneg (by decide)⟩

/-- Claim C7: `route(a, a)` returns the single-node path `[a]` with total cost
0: `Map.dijkstra(a, a)` returns `([a], 0)` and likewise `Map.bfs(a, a)`
returns `[a]` (bfs returns only the path; it computes no cost). -/
theorem route_self_single_node (gd : Geo R) (m : Map) (g : Graph R) (a : String) (n : ℕ)
    (hg : buildGraph gd m = some g) :
    dijkstra gd m a a (n + 1) = .ok [a] (some 0) ∧ bfs m a a (n + 1) = .found [a] :=
  ⟨dijkstra_self gd m g a n hg, bfs_self m a n⟩

/-- Witness for C7 at the node `A` of the path graph. -/
theorem route_self_single_node_witness :
    buildGraph gdUnit lineMap = some lineGraph ∧
    (dijkstra gdUnit lineMap "A" "A" 5 = .ok ["A"] (some 0) ∧
      bfs lineMap "A" "A" 5 = .found ["A"]) :=
  ⟨by decide, route_self_single_node gdUnit lineMap lineGraph "A" 4 (by decide)⟩

/-- Claim C8: `nearestNode(lat, lon)` returns a node whose planar-approximate
distance to the query point is less than or equal to that of every other node
in the graph.  Modelled from the spec (§4.4): the implementation is not under
`src/`, so the linear scan keeping the minimum squared planar-approximate
distance is modelled with the distance function abstracted as `pd`. -/
theorem nearest_node_returns_closest (pd : Geo R) (m : Map) (lat lon : ℚ)
    (hne : m.locations ≠ []) :
    ∃ nm loc, nearest_node pd m lat lon = some nm ∧ (nm, loc) ∈ m.locations ∧
      ∀ q ∈ m.locations,
        pd (lat, lon) (loc.lat, loc.long) ≤ pd (lat, lon) (q.2.lat, q.2.long) :=
  nearest_node_min pd m lat lon hne

/-- Witness for C8 on the three-node map. -/
theorem nearest_node_returns_closest_witness :
    lineMap.locations ≠ [] ∧
    (∃ nm loc, nearest_node gdUnit lineMap 0 2 = some nm ∧ (nm, loc) ∈ lineMap.locations ∧
      ∀ q ∈ lineMap.locations,
        gdUnit (0, 2) (loc.lat, loc.long) ≤ gdUnit (0, 2) (q.2.lat, q.2.long)) :=
  ⟨by decide, nearest_node_returns_closest gdUnit lineMap 0 2 (by decide)⟩

/-- Claim C9: every `Map` reachable by any sequence of `add_location`,
`add_neighbours` and `connect_nearest_loc` calls from a fresh `Map` has
symmetric adjacency, every `neighbours` key is a `locations` key, every
location is stored under its own name, and `check_invariants` raises no
error (returns `true` in the boolean model). -/
theorem map_api_invariants (nm : String) (ops : List (MapOp R)) :
    (∀ u v, memNb (applyOps (Map.mk nm [] []) ops) u v ↔
      memNb (applyOps (Map.mk nm [] []) ops) v u) ∧
    (∀ k, (lookupA (applyOps (Map.mk nm [] []) ops).neighbours k).isSome →
      (lookupA (applyOps (Map.mk nm [] []) ops).locations k).isSome) ∧
    (∀ p ∈ (applyOps (Map.mk nm [] []) ops).locations, p.2.name = p.1) ∧
    check_invariants (applyOps (Map.mk nm [] []) ops) = true := by
  have hinv := mapInv_applyOps nm ops
  exact ⟨hinv.symm, fun k hk => (hinv.keysEq k).mp hk, hinv.locKey,
    check_invariants_of_inv hinv⟩

/-- Claim C10: in every call to `Map.dijkstra` the weight of each edge
`(u, v)` is recomputed as `calculate_distance` between the stored coordinates
of `u` and `v` (the `Map` stores no per-edge cost, and `dijkstra` takes no
mode argument); given the geodesic function is symmetric, so is every edge
weight; and the returned total is always the sum of these recomputed
geographic edge weights along the returned path. -/
theorem dijkstra_weights_geographic (gd : Geo R) (m : Map) (g : Graph R)
    (hsym : ∀ x y, gd x y = gd y x) (hgd : ∀ x y, 0 ≤ gd x y)
    (hg : buildGraph gd m = some g) :
    (∀ u row b w, lookupA g u = some row → lookupA row b = some w →
      ∃ nbrs l1 l2, (u, nbrs) ∈ m.neighbours ∧ b ∈ nbrs ∧
        lookupA m.locations u = some l1 ∧ lookupA m.locations b = some l2 ∧
        w = calculate_distance gd l1 l2) ∧
    (∀ u row b w rowb wb, lookupA g u = some row → lookupA row b = some w →
      lookupA g b = some rowb → lookupA rowb u = some wb → w = wb) ∧
    (∀ a b fuel path c, dijkstra gd m a b fuel = .ok path c →
      ∃ q, c = some q ∧ pathCost g path = some q) := by
  refine ⟨buildGraph_edge gd m g hg, ?_, ?_⟩
  · intro u row b w rowb wb hu hb hbu hwb
    obtain ⟨nbrs, l1, l2, _, _, hl1, hl2, hw⟩ := buildGraph_edge gd m g hg u row b w hu hb
    obtain ⟨nbrs', l2', l1', _, _, hl2', hl1', hw'⟩ :=
      buildGraph_edge gd m g hg b rowb u wb hbu hwb
    rw [hl1] at hl1'
    rw [hl2] at hl2'
    injection hl1' with e1
    injection hl2' with e2
    rw [hw, hw', ← e1, ← e2]
    unfold calculate_distance
    exact hsym _ _
  · intro a b fuel path c h
    obtain ⟨g', hg', _, _, _, ⟨q, hq, hpc⟩, _⟩ := dijkstra_ok_spec gd m a b fuel path c hgd h
    rw [hg] at hg'
    injection hg' with e
    rw [← e] at hpc
    exact ⟨q, hq, hpc⟩

/-- Witness for C10 on the path graph under the symmetric non-negative
`gdUnit`. -/
theorem dijkstra_weights_geographic_witness :
    ((∀ x y, gdUnit x y = gdUnit y x) ∧ (∀ x y, 0 ≤ gdUnit x y) ∧
      buildGraph gdUnit lineMap = some lineGraph) ∧
    ((∀ u row b w, lookupA lineGraph u = some row → lookupA row b = some w →
      ∃ nbrs l1 l2, (u, nbrs) ∈ lineMap.neighbours ∧ b ∈ nbrs ∧
        lookupA lineMap.locations u = some l1 ∧ lookupA lineMap.locations b = some l2 ∧
        w = calculate_distance gdUnit l1 l2) ∧
    (∀ u row b w rowb wb, lookupA lineGraph u = some row → lookupA row b = some w →
      lookupA lineGraph b = some rowb → lookupA rowb u = some wb → w = wb) ∧
    (∀ a b fuel path c, dijkstra gdUnit lineMap a b fuel = .ok path c →
      ∃ q, c = some q ∧ pathCost lineGraph path = some q)) :=
  ⟨⟨gdUnit_symm, gdUnit_nonneg, by decide⟩,
   dijkstra_weights_geographic gdUnit lineMap lineGraph gdUnit_symm gdUnit_nonneg
     (by decide)⟩

/-! ## Completeness of the search: auxiliary predicates

For the completeness proof (connected nodes are in fact found) we track, in
addition to `DInv`: every finite tentative distance is either still backed by
an exact frontier entry or all its edges are already relaxed (`CPInv`); a
finite goal distance always keeps a frontier entry (`DestQ`); every frontier
node is a graph key (`QinG`); and every graph key has a `distances` entry
(`GsubD`). -/

/-- Every listed edge target is itself a key of the built graph. -/
def GClosed (g : Graph R) : Prop :=
  ∀ u row, lookupA g u = some row → ∀ nw ∈ row, (lookupA g nw.1).isSome

/-- All edges out of `v` are relaxed with respect to tentative distance `q`. -/
def Relaxed (g : Graph R) (dist : List (String × Option R)) (v : String) (q : R) : Prop :=
  ∀ row, lookupA g v = some row → ∀ nw ∈ row,
    ∃ qn, lookupA dist nw.1 = some (some qn) ∧ qn ≤ q + nw.2

def CPInv (g : Graph R) (s : DState R) : Prop :=
  ∀ v q, lookupA s.dist v = some (some q) →
    (q, v) ∈ s.queue ∨ Relaxed g s.dist v q

def DestQ (dest : String) (s : DState R) : Prop :=
  ∀ q, lookupA s.dist dest = some (some q) → ∃ e ∈ s.queue, e.2 = dest

def QinG (g : Graph R) (s : DState R) : Prop :=
  ∀ e ∈ s.queue, (lookupA g e.2).isSome

def GsubD (g : Graph R) (s : DState R) : Prop :=
  ∀ k, (lookupA g k).isSome → (lookupA s.dist k).isSome

/-! ## Per-edge facts about `relaxEdge` -/

theorem relaxEdge_cases {u : String} {d : R} {s s' : DState R} {nw : String × R}
    (h : relaxEdge u d s nw = some s') :
    s' = s ∨
    (∃ dn, lookupA s.dist nw.1 = some dn ∧ ltInf (d + nw.2) dn = true ∧
      s' = ⟨insertA s.dist nw.1 (some (d + nw.2)), insertA s.parent nw.1 (some u),
            s.queue ++ [(d + nw.2, nw.1)]⟩) := by
  rcases hdn : lookupA s.dist nw.1 with _ | dn
  · simp only [relaxEdge, hdn] at h
    exact Option.noConfusion h
  · simp only [relaxEdge, hdn] at h
    by_cases hlt : ltInf (d + nw.2) dn
    · rw [if_pos hlt] at h
      injection h with h'
      exact .inr ⟨dn, rfl, hlt, h'.symm⟩
    · rw [if_neg hlt] at h
      injection h with h'
      exact .inl h'.symm

theorem relaxEdge_total {u : String} {d : R} {s : DState R} {nw : String × R}
    (h : (lookupA s.dist nw.1).isSome) : ∃ s', relaxEdge u d s nw = some s' := by
  rcases hdn : lookupA s.dist nw.1 with _ | dn
  · rw [hdn] at h
    simp at h
  · by_cases hlt : ltInf (d + nw.2) dn
    · exact ⟨_, by simp only [relaxEdge, hdn]; rw [if_pos hlt]⟩
    · exact ⟨s, by simp only [relaxEdge, hdn]; rw [if_neg hlt]⟩

theorem relaxEdge_queue_mono {u : String} {d : R} {s s' : DState R} {nw : String × R}
    (h : relaxEdge u d s nw = some s') : ∀ e ∈ s.queue, e ∈ s'.queue := by
  rcases relaxEdge_cases h with h' | ⟨dn, _, _, h'⟩
  · rw [h']
    intro e he
    exact he
  · rw [h']
    intro e he
    exact List.mem_append_left _ he

theorem relaxEdge_new_entries {u : String} {d : R} {s s' : DState R} {nw : String × R}
    (h : relaxEdge u d s nw = some s') : ∀ e ∈ s'.queue, e ∈ s.queue ∨ e.2 = nw.1 := by
  rcases relaxEdge_cases h with h' | ⟨dn, _, _, h'⟩
  · rw [h']
    intro e he
    exact .inl he
  · rw [h']
    intro e he
    rcases List.mem_append.mp he with he₁ | he₁
    · exact .inl he₁
    · rw [List.mem_singleton] at he₁
      rw [he₁]
      exact .inr rfl

theorem relaxEdge_dist_isSome {u : String} {d : R} {s s' : DState R} {nw : String × R}
    (h : relaxEdge u d s nw = some s') :
    ∀ x, (lookupA s.dist x).isSome → (lookupA s'.dist x).isSome := by
  rcases relaxEdge_cases h with h' | ⟨dn, _, _, h'⟩
  · rw [h']
    intro x hx
    exact hx
  · rw [h']
    intro x hx
    rw [lookupA_isSome_insertA]
    exact .inr hx

theorem relaxEdge_dist_mono {u : String} {d : R} {s s' : DState R} {nw : String × R}
    (h : relaxEdge u d s nw = some s') :
    ∀ x qx, lookupA s.dist x = some (some qx) →
      ∃ qx', lookupA s'.dist x = some (some qx') ∧ qx' ≤ qx := by
  rcases relaxEdge_cases h with h' | ⟨dn, hdn, hlt, h'⟩
  · rw [h']
    intro x qx hx
    exact ⟨qx, hx, le_refl _⟩
  · rw [h']
    intro x qx hx
    by_cases hxn : x = nw.1
    · subst hxn
      rw [hx] at hdn
      injection hdn with hdn'
      subst hdn'
      simp only [ltInf, decide_eq_true_eq] at hlt
      exact ⟨d + nw.2, lookupA_insertA_self _ _ _, le_of_lt hlt⟩
    · rw [lookupA_insertA_ne _ _ _ _ hxn]
      exact ⟨qx, hx, le_refl _⟩

theorem relaxEdge_dist_new {u : String} {d : R} {s s' : DState R} {nw : String × R}
    (h : relaxEdge u d s nw = some s') :
    ∀ x qx, lookupA s'.dist x = some (some qx) →
      lookupA s.dist x = some (some qx) ∨ (qx, x) ∈ s'.queue := by
  rcases relaxEdge_cases h with h' | ⟨dn, hdn, hlt, h'⟩
  · rw [h']
    intro x qx hx
    exact .inl hx
  · rw [h']
    intro x qx hx
    by_cases hxn : x = nw.1
    · subst hxn
      rw [lookupA_insertA_self] at hx
      injection hx with hx'
      injection hx' with hx''
      rw [← hx'']
      exact .inr (List.mem_append_right _ (List.mem_singleton.mpr rfl))
    · rw [lookupA_insertA_ne _ _ _ _ hxn] at hx
      exact .inl hx

theorem relaxEdge_keeps_small {u : String} {d : R} {s s' : DState R} {nw : String × R}
    (hw : 0 ≤ nw.2) (h : relaxEdge u d s nw = some s') :
    ∀ x qx, lookupA s.dist x = some (some qx) → qx ≤ d →
      lookupA s'.dist x = some (some qx) := by
  rcases relaxEdge_cases h with h' | ⟨dn, hdn, hlt, h'⟩
  · rw [h']
    intro x qx hx _
    exact hx
  · rw [h']
    intro x qx hx hqx
    by_cases hxn : x = nw.1
    · subst hxn
      rw [hx] at hdn
      injection hdn with hdn'
      subst hdn'
      simp only [ltInf, decide_eq_true_eq] at hlt
      exact absurd hlt (not_lt_of_le (le_trans hqx (le_add_of_nonneg_right hw)))
    · rw [lookupA_insertA_ne _ _ _ _ hxn]
      exact hx

theorem relaxEdge_noop {u : String} {d : R} {s : DState R} {nw : String × R}
    {qn : R} (hqn : lookupA s.dist nw.1 = some (some qn)) (hle : qn ≤ d + nw.2) :
    relaxEdge u d s nw = some s := by
  simp only [relaxEdge, hqn]
  rw [if_neg]
  simp only [ltInf, decide_eq_true_eq]
  exact not_lt_of_le hle

/-- Any successful relaxation leaves the edge target with a finite distance at
most `d + w`. -/
theorem relaxEdge_post {u : String} {d : R} {s s' : DState R} {nw : String × R}
    (h : relaxEdge u d s nw = some s') :
    ∃ qn, lookupA s'.dist nw.1 = some (some qn) ∧ qn ≤ d + nw.2 := by
  rcases hdn : lookupA s.dist nw.1 with _ | dn
  · simp only [relaxEdge, hdn] at h
    exact Option.noConfusion h
  · simp only [relaxEdge, hdn] at h
    by_cases hlt : ltInf (d + nw.2) dn
    · rw [if_pos hlt] at h
      injection h with h'
      rw [← h']
      exact ⟨d + nw.2, lookupA_insertA_self _ _ _, le_refl _⟩
    · rw [if_neg hlt] at h
      injection h with h'
      rw [← h']
      rcases dn with _ | qn
      · simp [ltInf] at hlt
      · simp only [ltInf, decide_eq_true_eq] at hlt
        exact ⟨qn, hdn, le_of_not_lt hlt⟩

/-! ## Fold-level facts about `relaxAll` -/

theorem relaxAll_total {u : String} {d : R} :
    ∀ (l : List (String × R)) (s : DState R),
      (∀ nw ∈ l, (lookupA s.dist nw.1).isSome) →
      ∃ s', List.foldlM (relaxEdge u d) s l = some s' := by
  intro l
  induction l with
  | nil =>
    intro s _
    exact ⟨s, by simp [List.foldlM_nil]⟩
  | cons nw t ih =>
    intro s hs
    obtain ⟨s₁, h₁⟩ := relaxEdge_total (u := u) (d := d) (hs nw (List.mem_cons_self _ _))
    obtain ⟨s', h'⟩ := ih s₁
      (fun x hx => relaxEdge_dist_isSome h₁ x.1 (hs x (List.mem_cons_of_mem _ hx)))
    refine ⟨s', ?_⟩
    rw [List.foldlM_cons, h₁]
    exact h'

theorem relaxAll_queue_mono {u : String} {d : R} :
    ∀ (l : List (String × R)) (s s' : DState R),
      List.foldlM (relaxEdge u d) s l = some s' → ∀ e ∈ s.queue, e ∈ s'.queue := by
  intro l
  induction l with
  | nil =>
    intro s s' h e he
    simp only [List.foldlM_nil] at h
    injection h with h'
    rw [← h']
    exact he
  | cons nw t ih =>
    intro s s' h e he
    rw [List.foldlM_cons] at h
    rcases h₁ : relaxEdge u d s nw with _ | s₁
    · rw [h₁] at h
      exact Option.noConfusion h
    · rw [h₁] at h
      exact ih s₁ s' h e (relaxEdge_queue_mono h₁ e he)

theorem relaxAll_new_entries {u : String} {d : R} :
    ∀ (l : List (String × R)) (s s' : DState R),
      List.foldlM (relaxEdge u d) s l = some s' →
      ∀ e ∈ s'.queue, e ∈ s.queue ∨ ∃ nw ∈ l, e.2 = nw.1 := by
  intro l
  induction l with
  | nil =>
    intro s s' h e he
    simp only [List.foldlM_nil] at h
    injection h with h'
    rw [← h'] at he
    exact .inl he
  | cons nw t ih =>
    intro s s' h e he
    rw [List.foldlM_cons] at h
    rcases h₁ : relaxEdge u d s nw with _ | s₁
    · rw [h₁] at h
      exact Option.noConfusion h
    · rw [h₁] at h
      rcases ih s₁ s' h e he with h₂ | ⟨x, hx, hex⟩
      · rcases relaxEdge_new_entries h₁ e h₂ with h₃ | h₃
        · exact .inl h₃
        · exact .inr ⟨nw, List.mem_cons_self _ _, h₃⟩
      · exact .inr ⟨x, List.mem_cons_of_mem _ hx, hex⟩

theorem relaxAll_dist_isSome {u : String} {d : R} :
    ∀ (l : List (String × R)) (s s' : DState R),
      List.foldlM (relaxEdge u d) s l = some s' →
      ∀ x, (lookupA s.dist x).isSome → (lookupA s'.dist x).isSome := by
  intro l
  induction l with
  | nil =>
    intro s s' h x hx
    simp only [List.foldlM_nil] at h
    injection h with h'
    rw [← h']
    exact hx
  | cons nw t ih =>
    intro s s' h x hx
    rw [List.foldlM_cons] at h
    rcases h₁ : relaxEdge u d s nw with _ | s₁
    · rw [h₁] at h
      exact Option.noConfusion h
    · rw [h₁] at h
      exact ih s₁ s' h x (relaxEdge_dist_isSome h₁ x hx)

theorem relaxAll_dist_mono {u : String} {d : R} :
    ∀ (l : List (String × R)) (s s' : DState R),
      List.foldlM (relaxEdge u d) s l = some s' →
      ∀ x qx, lookupA s.dist x = some (some qx) →
        ∃ qx', lookupA s'.dist x = some (some qx') ∧ qx' ≤ qx := by
  intro l
  induction l with
  | nil =>
    intro s s' h x qx hx
    simp only [List.foldlM_nil] at h
    injection h with h'
    rw [← h']
    exact ⟨qx, hx, le_refl _⟩
  | cons nw t ih =>
    intro s s' h x qx hx
    rw [List.foldlM_cons] at h
    rcases h₁ : relaxEdge u d s nw with _ | s₁
    · rw [h₁] at h
      exact Option.noConfusion h
    · rw [h₁] at h
      obtain ⟨q₁, hq₁, hle₁⟩ := relaxEdge_dist_mono h₁ x qx hx
      obtain ⟨q₂, hq₂, hle₂⟩ := ih s₁ s' h x q₁ hq₁
      exact ⟨q₂, hq₂, le_trans hle₂ hle₁⟩

theorem relaxAll_dist_new {u : String} {d : R} :
    ∀ (l : List (String × R)) (s s' : DState R),
      List.foldlM (relaxEdge u d) s l = some s' →
      ∀ x qx, lookupA s'.dist x = some (some qx) →
        lookupA s.dist x = some (some qx) ∨ (qx, x) ∈ s'.queue := by
  intro l
  induction l with
  | nil =>
    intro s s' h x qx hx
    simp only [List.foldlM_nil] at h
    injection h with h'
    rw [← h'] at hx
    exact .inl hx
  | cons nw t ih =>
    intro s s' h x qx hx
    rw [List.foldlM_cons] at h
    rcases h₁ : relaxEdge u d s nw with _ | s₁
    · rw [h₁] at h
      exact Option.noConfusion h
    · rw [h₁] at h
      rcases ih s₁ s' h x qx hx with h₂ | h₂
      · rcases relaxEdge_dist_new h₁ x qx h₂ with h₃ | h₃
        · exact .inl h₃
        · exact .inr (relaxAll_queue_mono t s₁ s' h _ h₃)
      · exact .inr h₂

theorem relaxAll_keeps_small {u : String} {d : R} :
    ∀ (l : List (String × R)), (∀ nw ∈ l, 0 ≤ nw.2) →
      ∀ (s s' : DState R), List.foldlM (relaxEdge u d) s l = some s' →
      ∀ x qx, lookupA s.dist x = some (some qx) → qx ≤ d →
        lookupA s'.dist x = some (some qx) := by
  intro l
  induction l with
  | nil =>
    intro _ s s' h x qx hx _
    simp only [List.foldlM_nil] at h
    injection h with h'
    rw [← h']
    exact hx
  | cons nw t ih =>
    intro hnn s s' h x qx hx hle
    rw [List.foldlM_cons] at h
    rcases h₁ : relaxEdge u d s nw with _ | s₁
    · rw [h₁] at h
      exact Option.noConfusion h
    · rw [h₁] at h
      exact ih (fun y hy => hnn y (List.mem_cons_of_mem _ hy)) s₁ s' h x qx
        (relaxEdge_keeps_small (hnn nw (List.mem_cons_self _ _)) h₁ x qx hx hle) hle

theorem relaxAll_relaxed {u : String} {d : R} :
    ∀ (l : List (String × R)) (s s' : DState R),
      List.foldlM (relaxEdge u d) s l = some s' →
      ∀ nw ∈ l, ∃ qn, lookupA s'.dist nw.1 = some (some qn) ∧ qn ≤ d + nw.2 := by
  intro l
  induction l with
  | nil =>
    intro s s' h nw hnw
    simp at hnw
  | cons x t ih =>
    intro s s' h nw hnw
    rw [List.foldlM_cons] at h
    rcases h₁ : relaxEdge u d s x with _ | s₁
    · rw [h₁] at h
      exact Option.noConfusion h
    · rw [h₁] at h
      rcases List.mem_cons.mp hnw with he | he
      · subst he
        obtain ⟨qn, hqn, hle⟩ := relaxEdge_post h₁
        obtain ⟨qn', hqn', hle'⟩ := relaxAll_dist_mono t s₁ s' h nw.1 qn hqn
        exact ⟨qn', hqn', le_trans hle' hle⟩
      · exact ih s₁ s' h nw he

theorem relaxAll_noop {u : String} {d : R} :
    ∀ (l : List (String × R)) (s : DState R),
      (∀ nw ∈ l, ∃ qn, lookupA s.dist nw.1 = some (some qn) ∧ qn ≤ d + nw.2) →
      List.foldlM (relaxEdge u d) s l = some s := by
  intro l
  induction l with
  | nil =>
    intro s _
    simp [List.foldlM_nil]
  | cons nw t ih =>
    intro s hall
    obtain ⟨qn, hqn, hle⟩ := hall nw (List.mem_cons_self _ _)
    rw [List.foldlM_cons, relaxEdge_noop hqn hle]
    exact ih s (fun y hy => hall y (List.mem_cons_of_mem _ hy))

theorem lookupA_mapval {α β : Type} (c : β) :
    ∀ (l : List (String × α)) (k : String),
      lookupA (l.map (fun p => (p.1, c))) k = (lookupA l k).map (fun _ => c) := by
  intro l
  induction l with
  | nil =>
    intro k
    simp [lookupA]
  | cons p rest ih =>
    intro k
    obtain ⟨k₀, v₀⟩ := p
    by_cases h : k₀ = k
    · simp only [List.map_cons]
      rw [lookupA_cons_eq h, lookupA_cons_eq h]
      rfl
    · simp only [List.map_cons]
      rw [lookupA_cons_ne h, lookupA_cons_ne h, ih]

theorem initDist_finite {g : Graph R} {start k : String} {q : R}
    (h : lookupA (initDist g start) k = some (some q)) : k = start ∧ q = 0 := by
  by_cases hk : k = start
  · subst hk
    rw [initDist, lookupA_insertA_self] at h
    injection h with h'
    injection h' with h''
    exact ⟨rfl, h''.symm⟩
  · rw [initDist, lookupA_insertA_ne _ _ _ _ hk, lookupA_mapval] at h
    rcases hg : lookupA g k with _ | row
    · rw [hg] at h
      exact Option.noConfusion h
    · rw [hg] at h
      injection h with h'
      exact Option.noConfusion h'

theorem initDist_isSome {g : Graph R} {start k : String}
    (h : (lookupA g k).isSome) : (lookupA (initDist g start) k).isSome := by
  by_cases hk : k = start
  · subst hk
    rw [initDist, lookupA_insertA_self]
    rfl
  · rw [initDist, lookupA_insertA_ne _ _ _ _ hk, lookupA_mapval]
    rcases hg : lookupA g k with _ | row
    · rw [hg] at h
      simp at h
    · rfl

/-- Decidable form of "all work at `u` is finished": its tentative distance is
finite, lower-bounds the whole frontier, and all its outgoing edges are
relaxed. -/
def DoneB (g : Graph R) (s : DState R) (u : String) : Bool :=
  match lookupA s.dist u with
  | some (some q) =>
    (s.queue.all fun e => decide (q ≤ e.1)) &&
    (match lookupA g u with
     | some row => row.all fun nw =>
        match lookupA s.dist nw.1 with
        | some (some qn) => decide (qn ≤ q + nw.2)
        | _ => false
     | none => true)
  | _ => false

theorem doneB_iff (g : Graph R) (s : DState R) (u : String) :
    DoneB g s u = true ↔
      ∃ q, lookupA s.dist u = some (some q) ∧ (∀ e ∈ s.queue, q ≤ e.1) ∧
        ∀ row, lookupA g u = some row → ∀ nw ∈ row,
          ∃ qn, lookupA s.dist nw.1 = some (some qn) ∧ qn ≤ q + nw.2 := by
  constructor
  · intro h
    rcases hd : lookupA s.dist u with _ | o
    · rw [DoneB, hd] at h
      exact Bool.noConfusion h
    rcases o with _ | q
    · rw [DoneB, hd] at h
      exact Bool.noConfusion h
    refine ⟨q, rfl, ?_, ?_⟩
    · rw [DoneB, hd, Bool.and_eq_true, List.all_eq_true] at h
      intro e he
      have := h.1 e he
      simpa using this
    · rw [DoneB, hd, Bool.and_eq_true] at h
      intro row hrow nw hnw
      have h2 := h.2
      rw [hrow, List.all_eq_true] at h2
      have := h2 nw hnw
      rcases hn : lookupA s.dist nw.1 with _ | ov
      · rw [hn] at this
        exact Bool.noConfusion this
      rcases ov with _ | qn
      · rw [hn] at this
        exact Bool.noConfusion this
      · rw [hn] at this
        simp only [decide_eq_true_eq] at this
        exact ⟨qn, rfl, this⟩
  · rintro ⟨q, hq, hbound, hrel⟩
    rw [DoneB, hq, Bool.and_eq_true]
    constructor
    · rw [List.all_eq_true]
      intro e he
      simpa using hbound e he
    · rcases hrow : lookupA g u with _ | row
      · rfl
      · rw [List.all_eq_true]
        intro nw hnw
        obtain ⟨qn, hqn, hle⟩ := hrel row hrow nw hnw
        rw [hqn]
        simpa using hle

theorem relaxAll_entry_lb {u : String} {d : R} :
    ∀ (l : List (String × R)), (∀ nw ∈ l, 0 ≤ nw.2) →
      ∀ (s s' : DState R), List.foldlM (relaxEdge u d) s l = some s' →
      ∀ e ∈ s'.queue, e ∈ s.queue ∨ d ≤ e.1 := by
  intro l
  induction l with
  | nil =>
    intro _ s s' h e he
    simp only [List.foldlM_nil] at h
    injection h with h'
    rw [← h'] at he
    exact .inl he
  | cons nw t ih =>
    intro hnn s s' h e he
    rw [List.foldlM_cons] at h
    rcases h₁ : relaxEdge u d s nw with _ | s₁
    · rw [h₁] at h
      exact Option.noConfusion h
    · rw [h₁] at h
      rcases ih (fun y hy => hnn y (List.mem_cons_of_mem _ hy)) s₁ s' h e he with h₂ | h₂
      · rcases relaxEdge_cases h₁ with h₃ | ⟨dn, _, _, h₃⟩
        · rw [h₃] at h₂
          exact .inl h₂
        · rw [h₃] at h₂
          rcases List.mem_append.mp h₂ with h₄ | h₄
          · exact .inl h₄
          · rw [List.mem_singleton] at h₄
            rw [h₄]
            exact .inr (le_add_of_nonneg_right (hnn nw (List.mem_cons_self _ _)))
      · exact .inr h₂

/-- With an empty frontier every finite tentative distance has all its edges
relaxed, so finiteness propagates along any reachability chain. -/
theorem reach_finite_of_empty (g : Graph R) (s : DState R)
    (hq : s.queue = []) (hcp : CPInv g s) {a b : String}
    (hreach : Relation.ReflTransGen
      (fun x y => ∃ row, lookupA g x = some row ∧ y ∈ keysA row) a b)
    (ha : ∃ qa, lookupA s.dist a = some (some qa)) :
    ∃ qb, lookupA s.dist b = some (some qb) := by
  induction hreach with
  | refl => exact ha
  | tail hxy hstep ih =>
    obtain ⟨qx, hqx⟩ := ih
    obtain ⟨row, hrow, hmem⟩ := hstep
    rcases hcp _ qx hqx with hin | hrel
    · rw [hq] at hin
      simp at hin
    · obtain ⟨nw, hnw, hfst⟩ := List.mem_map.mp (by rw [keysA] at hmem; exact hmem)
      obtain ⟨qn, hqn, _⟩ := hrel row hrow nw hnw
      rw [hfst] at hqn
      exact ⟨qn, hqn⟩

/-! ## Step-level preservation of the completeness invariants -/

theorem pop_survives {s : DState R} {d : R} {u : String} {q' : List (R × String)}
    (hpop : popMin s.queue = some ((d, u), q')) :
    ∀ e ∈ s.queue, e ≠ (d, u) → e ∈ q' := by
  intro e he hne
  rcases List.mem_cons.mp ((popMin_perm hpop).subset he) with h | h
  · exact absurd h hne
  · exact h

theorem pop_subset {s : DState R} {d : R} {u : String} {q' : List (R × String)}
    (hpop : popMin s.queue = some ((d, u), q')) : ∀ e ∈ q', e ∈ s.queue := by
  intro e he
  exact (popMin_perm hpop).symm.subset (List.mem_cons_of_mem _ he)

theorem cinv_expand {g : Graph R} {dest : String} {s s' : DState R}
    {d : R} {u : String} {q' : List (R × String)} {row : List (String × R)}
    (hcp : CPInv g s) (hdq : DestQ dest s) (hqg : QinG g s) (hgd : GsubD g s)
    (hpop : popMin s.queue = some ((d, u), q')) (hud : u ≠ dest)
    (hdu : lookupA s.dist u = some (some d))
    (hrow : lookupA g u = some row)
    (hclosed : GClosed g)
    (hrel : List.foldlM (relaxEdge u d) ⟨s.dist, s.parent, q'⟩ row = some s') :
    CPInv g s' ∧ DestQ dest s' ∧ QinG g s' ∧ GsubD g s' := by
  have hmid : (⟨s.dist, s.parent, q'⟩ : DState R).dist = s.dist := rfl
  refine ⟨?_, ?_, ?_, ?_⟩
  · intro v q hq'
    rcases relaxAll_dist_new row _ s' hrel v q hq' with hold | hnew
    · rw [hmid] at hold
      by_cases hvu : v = u
      · subst hvu
        rw [hdu] at hold
        injection hold with h₁
        injection h₁ with h₂
        refine .inr ?_
        intro row₂ hrow₂ nw hnw
        rw [hrow] at hrow₂
        injection hrow₂ with h₃
        subst h₃
        rw [← h₂]
        exact relaxAll_relaxed row _ s' hrel nw hnw
      · rcases hcp v q hold with hin | hrelx
        · have hq'mem : (q, v) ∈ q' :=
            pop_survives hpop _ hin (fun he => hvu (congrArg Prod.snd he))
          exact .inl (relaxAll_queue_mono row _ s' hrel _ hq'mem)
        · refine .inr ?_
          intro row₂ h₂ nw hnw
          obtain ⟨qn, hqn, hle⟩ := hrelx row₂ h₂ nw hnw
          obtain ⟨qn', hqn', hle'⟩ := relaxAll_dist_mono row _ s' hrel nw.1 qn (by
            rw [hmid]
            exact hqn)
          exact ⟨qn', hqn', le_trans hle' hle⟩
    · exact .inl hnew
  · intro q hq'
    rcases relaxAll_dist_new row _ s' hrel dest q hq' with hold | hnew
    · rw [hmid] at hold
      obtain ⟨e, he, hedest⟩ := hdq q hold
      have he' : e ∈ q' := by
        refine pop_survives hpop e he ?_
        intro heq
        rw [heq] at hedest
        exact hud hedest
      exact ⟨e, relaxAll_queue_mono row _ s' hrel _ he', hedest⟩
    · exact ⟨(q, dest), hnew, rfl⟩
  · intro e he
    rcases relaxAll_new_entries row _ s' hrel e he with hin | ⟨nw, hnw, hfst⟩
    · exact hqg e (pop_subset hpop e hin)
    · rw [hfst]
      exact hclosed u row hrow nw hnw
  · intro k hk
    exact relaxAll_dist_isSome row _ s' hrel k (hgd k hk)

theorem cinv_shrink {g : Graph R} {dest : String} {s : DState R}
    {d : R} {u : String} {du : Option R} {q' : List (R × String)}
    (hcp : CPInv g s) (hdq : DestQ dest s) (hqg : QinG g s) (hgd : GsubD g s)
    (hpop : popMin s.queue = some ((d, u), q')) (hud : u ≠ dest)
    (hdu : lookupA s.dist u = some du) (hstale : gtInf d du = true) :
    CPInv g ⟨s.dist, s.parent, q'⟩ ∧ DestQ dest ⟨s.dist, s.parent, q'⟩ ∧
      QinG g ⟨s.dist, s.parent, q'⟩ ∧ GsubD g ⟨s.dist, s.parent, q'⟩ := by
  refine ⟨?_, ?_, ?_, ?_⟩
  · intro v q hq
    rcases hcp v q hq with hin | hrelx
    · refine .inl (pop_survives hpop _ hin ?_)
      intro heq
      have hv : v = u := congrArg Prod.snd heq
      have hqd : q = d := congrArg Prod.fst heq
      subst hv
      rw [hdu] at hq
      injection hq with h₁
      subst h₁
      simp only [gtInf, decide_eq_true_eq] at hstale
      rw [hqd] at hstale
      exact absurd hstale (lt_irrefl d)
    · exact .inr hrelx
  · intro q hq
    obtain ⟨e, he, hedest⟩ := hdq q hq
    refine ⟨e, pop_survives hpop e he ?_, hedest⟩
    intro heq
    rw [heq] at hedest
    exact hud hedest
  · intro e he
    exact hqg e (pop_subset hpop e he)
  · exact hgd

/-! ## `DoneB` through the steps -/

theorem doneB_shrink {g : Graph R} {s : DState R}
    {par : List (String × Option String)} {q' : List (R × String)}
    (hsub : ∀ e ∈ q', e ∈ s.queue) :
    ∀ v, DoneB g s v = true → DoneB g ⟨s.dist, par, q'⟩ v = true := by
  intro v hv
  rw [doneB_iff] at hv ⊢
  obtain ⟨q, hq, hbnd, hrel⟩ := hv
  exact ⟨q, hq, fun e he => hbnd e (hsub e he), hrel⟩

theorem doneB_expand_mono {g : Graph R} {s s' : DState R}
    {d : R} {u : String} {q' : List (R × String)} {row : List (String × R)}
    (hpop : popMin s.queue = some ((d, u), q'))
    (hnnrow : ∀ nw ∈ row, 0 ≤ nw.2)
    (hrel : List.foldlM (relaxEdge u d) ⟨s.dist, s.parent, q'⟩ row = some s') :
    ∀ v, DoneB g s v = true → DoneB g s' v = true := by
  intro v hv
  rw [doneB_iff] at hv ⊢
  obtain ⟨q, hq, hbnd, hrelx⟩ := hv
  have hqd : q ≤ d := hbnd (d, u) ((popMin_perm hpop).symm.subset (List.mem_cons_self _ _))
  have hq' : lookupA s'.dist v = some (some q) :=
    relaxAll_keeps_small row hnnrow _ s' hrel v q hq hqd
  refine ⟨q, hq', ?_, ?_⟩
  · intro e he
    rcases relaxAll_entry_lb row hnnrow _ s' hrel e he with hin | hlb
    · exact hbnd e (pop_subset hpop e hin)
    · exact le_trans hqd hlb
  · intro row₂ h₂ nw hnw
    obtain ⟨qn, hqn, hle⟩ := hrelx row₂ h₂ nw hnw
    obtain ⟨qn', hqn', hle'⟩ := relaxAll_dist_mono row _ s' hrel nw.1 qn hqn
    exact ⟨qn', hqn', le_trans hle' hle⟩

theorem doneB_expand_self {g : Graph R} {s s' : DState R}
    {d : R} {u : String} {q' : List (R × String)} {row : List (String × R)}
    (hpop : popMin s.queue = some ((d, u), q'))
    (hdu : lookupA s.dist u = some (some d))
    (hrow : lookupA g u = some row)
    (hnnrow : ∀ nw ∈ row, 0 ≤ nw.2)
    (hrel : List.foldlM (relaxEdge u d) ⟨s.dist, s.parent, q'⟩ row = some s') :
    DoneB g s' u = true := by
  rw [doneB_iff]
  have hd' : lookupA s'.dist u = some (some d) :=
    relaxAll_keeps_small row hnnrow _ s' hrel u d hdu (le_refl d)
  refine ⟨d, hd', ?_, ?_⟩
  · intro e he
    rcases relaxAll_entry_lb row hnnrow _ s' hrel e he with hin | hlb
    · exact popMin_min hpop e (pop_subset hpop e hin)
    · exact hlb
  · intro row₂ h₂ nw hnw
    rw [hrow] at h₂
    injection h₂ with h₃
    subst h₃
    exact relaxAll_relaxed row _ s' hrel nw hnw

theorem relaxAll_of_done {g : Graph R} {s : DState R}
    {d : R} {u : String} {q' : List (R × String)} {row : List (String × R)}
    (hdone : DoneB g s u = true)
    (hdu : lookupA s.dist u = some (some d))
    (hrow : lookupA g u = some row) :
    List.foldlM (relaxEdge u d) (⟨s.dist, s.parent, q'⟩ : DState R) row
      = some ⟨s.dist, s.parent, q'⟩ := by
  rw [doneB_iff] at hdone
  obtain ⟨q, hq, _, hrelx⟩ := hdone
  rw [hdu] at hq
  injection hq with h₁
  injection h₁ with h₂
  subst h₂
  exact relaxAll_noop row _ (hrelx row hrow)

/-! ## The frontier expansion never changes the key set of `dist` -/

theorem relaxEdge_keys {u : String} {d : R} {s s' : DState R} {nw : String × R}
    (h : relaxEdge u d s nw = some s') : keysA s'.dist = keysA s.dist := by
  rcases relaxEdge_cases h with h₁ | ⟨dn, hdn, _, h₁⟩
  · rw [h₁]
  · rw [h₁]
    exact keysA_insertA_of_isSome _ _ _ (by rw [hdn]; rfl)

theorem relaxAll_keys {u : String} {d : R} :
    ∀ (l : List (String × R)) (s s' : DState R),
      List.foldlM (relaxEdge u d) s l = some s' → keysA s'.dist = keysA s.dist := by
  intro l
  induction l with
  | nil =>
    intro s s' h
    simp only [List.foldlM_nil] at h
    injection h with h'
    rw [h']
  | cons nw t ih =>
    intro s s' h
    rw [List.foldlM_cons] at h
    rcases h₁ : relaxEdge u d s nw with _ | s₁
    · rw [h₁] at h
      exact Option.noConfusion h
    · rw [h₁] at h
      rw [ih s₁ s' h, relaxEdge_keys h₁]

/-- Reachability along the directed edges of the built graph. -/
def ReachG (g : Graph R) : String → String → Prop :=
  Relation.ReflTransGen (fun x y => ∃ row, lookupA g x = some row ∧ y ∈ keysA row)

/-- Termination and completeness of the `while` loop: from any state satisfying the
invariants in which some finitely-distanced node still reaches `dest`, enough
fuel makes the loop return an `ok` result.  The induction is on the number of
not-yet-`Done` keys, then on the frontier size. -/
theorem dijkstraLoop_complete (g : Graph R) (start dest : String)
    (hwf : RowsNodup g) (hnn : GraphNonneg g) (hclosed : GClosed g) :
    ∀ (n m : ℕ) (s : DState R),
      (keysA s.dist).countP (fun k => !DoneB g s k) ≤ n →
      s.queue.length ≤ m →
      DInv g start s → CPInv g s → DestQ dest s → QinG g s → GsubD g s →
      (∃ a qa, lookupA s.dist a = some (some qa) ∧ ReachG g a dest) →
      ∃ fuel path c, dijkstraLoop g dest s fuel = .ok path c := by
  intro n
  induction n using Nat.strong_induction_on with
  | _ n ihn =>
  intro m
  induction m with
  | zero =>
    intro s _ hm _ hcp hdq _ _ hre
    obtain ⟨a, qa, hqa, hr⟩ := hre
    have hq : s.queue = [] := List.length_eq_zero.mp (Nat.le_zero.mp hm)
    obtain ⟨qd, hqd⟩ := reach_finite_of_empty g s hq hcp hr ⟨qa, hqa⟩
    obtain ⟨e, he, _⟩ := hdq qd hqd
    rw [hq] at he
    exact absurd he (List.not_mem_nil e)
  | succ m ihm =>
    intro s hn hm hdinv hcp hdq hqg hgd hre
    rcases hpop : popMin s.queue with _ | pr
    · obtain ⟨a, qa, hqa, hr⟩ := hre
      have hq : s.queue = [] := (popMin_eq_none_iff s.queue).mp hpop
      obtain ⟨qd, hqd⟩ := reach_finite_of_empty g s hq hcp hr ⟨qa, hqa⟩
      obtain ⟨e, he, _⟩ := hdq qd hqd
      rw [hq] at he
      exact absurd he (List.not_mem_nil e)
    obtain ⟨⟨d, u⟩, q'⟩ := pr
    have hmem : (d, u) ∈ s.queue :=
      (popMin_perm hpop).symm.subset (List.mem_cons_self _ _)
    have hsub : ∀ e ∈ q', e ∈ s.queue :=
      fun e he => (popMin_perm hpop).symm.subset (List.mem_cons_of_mem _ he)
    have hqlen : s.queue.length = q'.length + 1 := by
      have := (popMin_perm hpop).length_eq
      simpa using this
    obtain ⟨hd0x, hpux, q0, hdq0x, hqlex⟩ := hdinv.queueInv (d, u) hmem
    have hd0 : 0 ≤ d := hd0x
    have hpu : (lookupA s.parent u).isSome := hpux
    have hdq0 : lookupA s.dist u = some (some q0) := hdq0x
    have hqle : q0 ≤ d := hqlex
    by_cases hud : u = dest
    · subst hud
      obtain ⟨depth, hdep⟩ := hdinv.depthInv
      have hkey : ∀ v p, lookupA s.parent v = some (some p) →
          (lookupA s.parent p).isSome := fun v p hv => (hdinv.parentInv v p hv).1
      have hcnt : (keysA s.parent).countP (fun k => decide (depth k < depth u))
          < s.parent.length + 1 := by
        have h1 := List.countP_le_length
          (p := fun k => decide (depth k < depth u)) (l := keysA s.parent)
        have h2 : (keysA s.parent).length = s.parent.length := List.length_map _ _
        omega
      obtain ⟨lst, hrec, _, _, _⟩ :=
        reconstruct_spec s.parent start hdinv.noneOnly hkey depth hdep
          (s.parent.length + 1) u hpu hcnt
      refine ⟨1, lst.reverse, some q0, ?_⟩
      simp only [dijkstraLoop, hpop, if_pos rfl, hrec, hdq0, if_true]
    · by_cases hstale : gtInf d (some q0) = true
      · have hshr : ∀ v, DoneB g s v = true →
            DoneB g ⟨s.dist, s.parent, q'⟩ v = true := doneB_shrink hsub
        obtain ⟨hcp', hdq', hqg', hgd'⟩ :=
          cinv_shrink hcp hdq hqg hgd hpop hud hdq0 hstale
        obtain ⟨a, qa, hqa, hr⟩ := hre
        obtain ⟨fuel, path, c, hloop⟩ := ihm ⟨s.dist, s.parent, q'⟩
          (le_trans (countP_le_of_mono
            (fun k hk => by
              rw [Bool.not_eq_true'] at hk ⊢
              rcases hds : DoneB g s k with _ | _
              · rfl
              · exact absurd (hshr k hds) (by rw [hk]; exact Bool.false_ne_true)) _) hn)
          (by have hq : q'.length ≤ m := by omega
              exact hq)
          (dinv_subqueue hdinv q' hsub) hcp' hdq' hqg' hgd' ⟨a, qa, hqa, hr⟩
        refine ⟨fuel + 1, path, c, ?_⟩
        simp only [dijkstraLoop, hpop]
        rw [if_neg hud]
        simp only [hdq0]
        rw [if_pos hstale]
        exact hloop
      · have hqd : q0 = d := by
          refine le_antisymm hqle (le_of_not_lt ?_)
          intro hlt
          exact hstale (by simp [gtInf, hlt])
        subst hqd
        rcases hgu : lookupA g u with _ | nbrs
        · have := hqg (q0, u) hmem
          rw [hgu] at this
          simp at this
        obtain ⟨s', hrel⟩ := relaxAll_total nbrs ⟨s.dist, s.parent, q'⟩
          (fun nw hnw => hgd nw.1 (hclosed u nbrs hgu nw hnw))
        have hctx : RelaxCtx g start u q0 ⟨s.dist, s.parent, q'⟩ := by
          refine ⟨dinv_subqueue hdinv q' hsub, hdq0, hpu, ?_, hd0, ?_⟩
          · intro e he
            exact popMin_min hpop e (hsub e he)
          · intro v p hv
            obtain ⟨_, _, _, _, qp, _, _, _, hdp, _, hset⟩ := hdinv.parentInv v p hv
            exact ⟨qp, hdp, hset (q0, u) hmem⟩
        have hdinv' : DInv g start s' :=
          (relaxAll_pres (hwf u nbrs hgu) (hnn u nbrs hgu) hgu nbrs
            (fun x hx => hx) hctx hrel).inv
        obtain ⟨hcp', hdq', hqg', hgd'⟩ :=
          cinv_expand hcp hdq hqg hgd hpop hud hdq0 hgu hclosed hrel
        have hre' : ∃ a qa, lookupA s'.dist a = some (some qa) ∧ ReachG g a dest := by
          obtain ⟨a, qa, hqa, hr⟩ := hre
          obtain ⟨qa', hqa', _⟩ := relaxAll_dist_mono nbrs _ s' hrel a qa hqa
          exact ⟨a, qa', hqa', hr⟩
        have hrelA : relaxAll u q0 nbrs ⟨s.dist, s.parent, q'⟩ = some s' := hrel
        by_cases hdone : DoneB g s u = true
        · have hnoop : List.foldlM (relaxEdge u q0) (⟨s.dist, s.parent, q'⟩ : DState R)
              nbrs = some ⟨s.dist, s.parent, q'⟩ := relaxAll_of_done hdone hdq0 hgu
          rw [hnoop] at hrel
          injection hrel with hs'
          obtain ⟨fuel, path, c, hloop⟩ := ihm s'
            (le_trans (by
              rw [← hs']
              exact countP_le_of_mono
                (fun k hk => by
                  rw [Bool.not_eq_true'] at hk ⊢
                  rcases hds : DoneB g s k with _ | _
                  · rfl
                  · exact absurd (doneB_shrink hsub k hds)
                      (by rw [hk]; exact Bool.false_ne_true)) _) hn)
            (by rw [← hs']
                have hq : q'.length ≤ m := by omega
                exact hq)
            hdinv' hcp' hdq' hqg' hgd' hre'
          refine ⟨fuel + 1, path, c, ?_⟩
          simp only [dijkstraLoop, hpop]
          rw [if_neg hud]
          simp only [hdq0]
          rw [if_neg hstale]
          simp only [hgu, hrelA]
          exact hloop
        · have hkeys : keysA s'.dist = keysA s.dist :=
            relaxAll_keys nbrs ⟨s.dist, s.parent, q'⟩ s' hrel
          have humem : u ∈ keysA s.dist :=
            (mem_keysA_iff s.dist u).mpr (by rw [hdq0]; rfl)
          have hmono : ∀ k, DoneB g s k = true → DoneB g s' k = true :=
            doneB_expand_mono hpop (hnn u nbrs hgu) hrel
          have hself : DoneB g s' u = true :=
            doneB_expand_self hpop hdq0 hgu (hnn u nbrs hgu) hrel
          have hlt : (keysA s'.dist).countP (fun k => !DoneB g s' k)
              < (keysA s.dist).countP (fun k => !DoneB g s k) := by
            rw [hkeys]
            refine countP_lt_of_mem ?_ humem ?_ ?_
            · intro k hk
              rw [Bool.not_eq_true'] at hk ⊢
              rcases hds : DoneB g s k with _ | _
              · rfl
              · exact absurd (hmono k hds) (by rw [hk]; exact Bool.false_ne_true)
            · intro hx
              rw [hself] at hx
              exact Bool.noConfusion hx
            · rcases hds : DoneB g s u with _ | _
              · rfl
              · exact absurd hds hdone
          obtain ⟨fuel, path, c, hloop⟩ := ihn
            ((keysA s'.dist).countP (fun k => !DoneB g s' k))
            (lt_of_lt_of_le hlt hn) s'.queue.length s' (le_refl _) (le_refl _)
            hdinv' hcp' hdq' hqg' hgd' hre'
          refine ⟨fuel + 1, path, c, ?_⟩
          simp only [dijkstraLoop, hpop]
          rw [if_neg hud]
          simp only [hdq0]
          rw [if_neg hstale]
          simp only [hgu, hrelA]
          exact hloop

/-! ## Key-completeness of the built graph -/

theorem buildRow_acc_sub (gd : Geo R) (m : Map) (ln : String) :
    ∀ (nbrs : List String) (acc row : List (String × R)),
      buildRow gd m ln nbrs acc = some row → ∀ k ∈ keysA acc, k ∈ keysA row := by
  intro nbrs
  induction nbrs with
  | nil =>
    intro acc row h k hk
    simp only [buildRow] at h
    injection h with h'
    rw [← h']
    exact hk
  | cons nn rest ih =>
    intro acc row h k hk
    rcases h1 : lookupA m.locations ln with _ | l1
    · simp only [buildRow, h1] at h
      exact Option.noConfusion h
    rcases h2 : lookupA m.locations nn with _ | l2
    · simp only [buildRow, h1, h2] at h
      exact Option.noConfusion h
    simp only [buildRow, h1, h2] at h
    refine ih _ row h k ?_
    rw [mem_keysA_iff]
    rw [mem_keysA_iff] at hk
    exact (lookupA_isSome_insertA acc nn k _).mpr (.inr hk)

theorem buildRow_keys (gd : Geo R) (m : Map) (ln : String) :
    ∀ (nbrs : List String) (acc row : List (String × R)),
      buildRow gd m ln nbrs acc = some row → ∀ v ∈ nbrs, v ∈ keysA row := by
  intro nbrs
  induction nbrs with
  | nil =>
    intro acc row h v hv
    simp at hv
  | cons nn rest ih =>
    intro acc row h v hv
    rcases h1 : lookupA m.locations ln with _ | l1
    · simp only [buildRow, h1] at h
      exact Option.noConfusion h
    rcases h2 : lookupA m.locations nn with _ | l2
    · simp only [buildRow, h1, h2] at h
      exact Option.noConfusion h
    simp only [buildRow, h1, h2] at h
    rcases List.mem_cons.mp hv with he | he
    · subst he
      refine buildRow_acc_sub gd m ln rest _ row h v ?_
      rw [mem_keysA_iff]
      exact (lookupA_isSome_insertA acc v _ _).mpr (.inl rfl)
    · exact ih _ row h v he

theorem buildRow_keys_src (gd : Geo R) (m : Map) (ln : String) :
    ∀ (nbrs : List String) (acc row : List (String × R)),
      buildRow gd m ln nbrs acc = some row →
      ∀ k ∈ keysA row, k ∈ keysA acc ∨ k ∈ nbrs := by
  intro nbrs
  induction nbrs with
  | nil =>
    intro acc row h k hk
    simp only [buildRow] at h
    injection h with h'
    rw [← h'] at hk
    exact .inl hk
  | cons nn rest ih =>
    intro acc row h k hk
    rcases h1 : lookupA m.locations ln with _ | l1
    · simp only [buildRow, h1] at h
      exact Option.noConfusion h
    rcases h2 : lookupA m.locations nn with _ | l2
    · simp only [buildRow, h1, h2] at h
      exact Option.noConfusion h
    simp only [buildRow, h1, h2] at h
    rcases ih _ row h k hk with h₃ | h₃
    · rw [mem_keysA_iff] at h₃
      rcases (lookupA_isSome_insertA acc nn k _).mp h₃ with he | he
      · exact .inr (List.mem_cons.mpr (.inl he))
      · exact .inl ((mem_keysA_iff acc k).mpr he)
    · exact .inr (List.mem_cons.mpr (.inr h₃))

theorem buildGraphAux_keys (gd : Geo R) (m : Map) :
    ∀ (l : List (String × List String)) (acc g : Graph R),
      buildGraphAux gd m l acc = some g →
      ∀ u, (u ∈ keysA l ∨ (lookupA acc u).isSome) → (lookupA g u).isSome := by
  intro l
  induction l with
  | nil =>
    intro acc g h u hu
    simp only [buildGraphAux] at h
    injection h with h'
    rw [← h']
    rcases hu with h₁ | h₁
    · simp at h₁
    · exact h₁
  | cons p rest ih =>
    intro acc g h u hu
    obtain ⟨ln, nbrs⟩ := p
    rcases h1 : buildRow gd m ln nbrs [] with _ | row₀
    · simp only [buildGraphAux, h1] at h
      exact Option.noConfusion h
    simp only [buildGraphAux, h1] at h
    refine ih _ g h u ?_
    rcases hu with h₁ | h₁
    · rw [keysA_cons] at h₁
      rcases List.mem_cons.mp h₁ with he | he
      · exact .inr ((lookupA_isSome_insertA acc ln u row₀).mpr (.inl he))
      · exact .inl he
    · exact .inr ((lookupA_isSome_insertA acc ln u row₀).mpr (.inr h₁))

theorem buildGraph_keys (gd : Geo R) (m : Map) (g : Graph R)
    (hbg : buildGraph gd m = some g) :
    ∀ u, (lookupA m.neighbours u).isSome → (lookupA g u).isSome := by
  intro u hu
  refine buildGraphAux_keys gd m m.neighbours [] g hbg u (.inl ?_)
  exact (mem_keysA_iff m.neighbours u).mpr hu

theorem memNb_edge_g (gd : Geo R) (m : Map) (g : Graph R)
    (hbg : buildGraph gd m = some g) (hnd : (keysA m.neighbours).Nodup)
    {u v : String} (hnb : memNb m u v) :
    ∃ row, lookupA g u = some row ∧ v ∈ keysA row := by
  rw [memNb] at hnb
  rcases hl : lookupA m.neighbours u with _ | nbrs
  · rw [hl] at hnb
    simp at hnb
  rw [hl] at hnb
  simp only [Option.getD_some] at hnb
  have hk : (lookupA g u).isSome := buildGraph_keys gd m g hbg u (by rw [hl]; rfl)
  rcases hg : lookupA g u with _ | row
  · rw [hg] at hk
    simp at hk
  obtain ⟨nbrs', hmem, hbr⟩ := buildGraph_lookup gd m g hbg u row hg
  have hlu : lookupA m.neighbours u = some nbrs' := mem_lookupA_nodup hnd hmem
  rw [hl] at hlu
  injection hlu with hnn
  rw [← hnn] at hbr
  exact ⟨row, rfl, buildRow_keys gd m u nbrs [] row hbr v hnb⟩

theorem buildGraph_closed (gd : Geo R) (m : Map) (g : Graph R)
    (hbg : buildGraph gd m = some g) (hnd : (keysA m.neighbours).Nodup)
    (hcl : ∀ u v, memNb m u v → (lookupA m.neighbours v).isSome) :
    GClosed g := by
  intro u row hrow nw hnw
  obtain ⟨nbrs, hmem, hbr⟩ := buildGraph_lookup gd m g hbg u row hrow
  rcases buildRow_keys_src gd m u nbrs [] row hbr nw.1
      (List.mem_map.mpr ⟨nw, hnw, rfl⟩) with h₁ | h₁
  · simp at h₁
  · have hlu : lookupA m.neighbours u = some nbrs := mem_lookupA_nodup hnd hmem
    have hnb : memNb m u nw.1 := by
      rw [memNb, hlu]
      simpa using h₁
    exact buildGraph_keys gd m g hbg nw.1 (hcl u nw.1 hnb)

/-- A decidable sufficient condition for the edge-closure hypothesis: every
name listed in any adjacency list is itself a `neighbours` key. -/
theorem closed_of_forall_mem {m : Map}
    (h : ∀ p ∈ m.neighbours, ∀ v ∈ p.2, (lookupA m.neighbours v).isSome) :
    ∀ u v, memNb m u v → (lookupA m.neighbours v).isSome := by
  intro u v hv
  rw [memNb] at hv
  rcases hl : lookupA m.neighbours u with _ | nbrs
  · rw [hl] at hv
    simp at hv
  · rw [hl] at hv
    exact h (u, nbrs) (lookupA_eq_some_mem hl) v (by simpa using hv)

/-- Completeness of `Map.dijkstra`: if the graph builds, adjacency keys are
unique and closed under listed neighbours, the start is a known key, and `dest`
is reachable from `start` along listed edges, then some fuel makes the search
return a result. -/
theorem dijkstra_complete (gd : Geo R) (m : Map) (start dest : String)
    (hgd : ∀ x y, 0 ≤ gd x y) {g : Graph R}
    (hbg : buildGraph gd m = some g)
    (hnd : (keysA m.neighbours).Nodup)
    (hcl : ∀ u v, memNb m u v → (lookupA m.neighbours v).isSome)
    (hstart : (lookupA m.neighbours start).isSome)
    (hreach : Relation.ReflTransGen (memNb m) start dest) :
    ∃ fuel path c, dijkstra gd m start dest fuel = .ok path c := by
  have hcp0 : CPInv g (⟨initDist g start, [(start, none)], [(0, start)]⟩ : DState R) := by
    intro v q hq
    obtain ⟨hv, hq0⟩ := initDist_finite hq
    subst hv
    subst hq0
    exact .inl (List.mem_singleton.mpr rfl)
  have hdq0 : DestQ dest (⟨initDist g start, [(start, none)], [(0, start)]⟩ : DState R) := by
    intro q hq
    obtain ⟨hv, hq0⟩ := initDist_finite hq
    exact ⟨(0, start), List.mem_singleton.mpr rfl, hv.symm⟩
  have hqg0 : QinG g (⟨initDist g start, [(start, none)], [(0, start)]⟩ : DState R) := by
    intro e he
    rw [List.mem_singleton] at he
    subst he
    exact buildGraph_keys gd m g hbg start hstart
  have hgd0 : GsubD g (⟨initDist g start, [(start, none)], [(0, start)]⟩ : DState R) :=
    fun k hk => initDist_isSome hk
  have hre0 : ∃ a qa,
      lookupA (⟨initDist g start, [(start, none)], [(0, start)]⟩ : DState R).dist a
        = some (some qa) ∧ ReachG g a dest := by
    refine ⟨start, 0, lookupA_insertA_self _ start _, ?_⟩
    refine Relation.ReflTransGen.mono ?_ hreach
    intro x y hxy
    obtain ⟨row, hr, hm⟩ := memNb_edge_g gd m g hbg hnd hxy
    exact ⟨row, hr, hm⟩
  obtain ⟨fuel, path, c, hloop⟩ := dijkstraLoop_complete g start dest
    (buildGraph_rowsNodup gd m g hbg) (buildGraph_nonneg gd m g hgd hbg)
    (buildGraph_closed gd m g hbg hnd hcl)
    ((keysA (initDist g start)).countP
      (fun k => !DoneB g (⟨initDist g start, [(start, none)], [(0, start)]⟩ : DState R) k))
    1 ⟨initDist g start, [(start, none)], [(0, start)]⟩
    (le_refl _) (le_refl _)
    (dinv_init g start) hcp0 hdq0 hqg0 hgd0 hre0
  refine ⟨fuel, path, c, ?_⟩
  simp only [dijkstra, hbg]
  exact hloop

/-- Claim C1: for every graph and every pair of connected nodes `a` and `b`,
`route(a, b, cost)` (implemented as `Map.dijkstra(a, b)`) returns a path whose
first element is `a`, whose last element is `b`, and whose summed per-edge
weights (the recomputed geodesic edge weights of the built graph) equal the
returned total cost.  Formalised in two parts.  Soundness: whatever fuel the
fueled loop is given, a returned `(path, cost)` pair starts at `a`, ends at
`b`, and `cost` is exactly the summed edge weight of the built graph along the
path.  Completeness: when the graph builds, adjacency keys are unique and
closed under listed neighbours, `a` is a known key and `b` is reachable from
`a` along listed edges, some fuel does return such a pair. -/
theorem dijkstra_route_endpoints_and_total (gd : Geo R) (m : Map) (a b : String)
    (hgd : ∀ x y, 0 ≤ gd x y) :
    (∀ (fuel : ℕ) (path : List String) (c : Option R),
      dijkstra gd m a b fuel = .ok path c →
      path.head? = some a ∧ path.getLast? = some b ∧
      ∃ g q, buildGraph gd m = some g ∧ c = some q ∧ pathCost g path = some q) ∧
    (∀ g : Graph R, buildGraph gd m = some g →
      (keysA m.neighbours).Nodup →
      (∀ u v, memNb m u v → (lookupA m.neighbours v).isSome) →
      (lookupA m.neighbours a).isSome →
      Relation.ReflTransGen (memNb m) a b →
      ∃ fuel path c, dijkstra gd m a b fuel = .ok path c) := by
  constructor
  · intro fuel path c h
    obtain ⟨g, hg, h1, h2, h3, ⟨q, hq, hpc⟩, h5⟩ :=
      dijkstra_ok_spec gd m a b fuel path c hgd h
    exact ⟨h2, h3, g, q, hg, hq, hpc⟩
  · intro g hbg hnd hcl hstart hreach
    exact dijkstra_complete gd m a b hgd hbg hnd hcl hstart hreach

/-- Witness for C1 on the path graph `A - B - C` with unit edge weights:
the soundness part at the concrete run returning `(["A", "B", "C"], 2)`, and
the completeness part at the connected pair `A`, `C`. -/
theorem dijkstra_route_endpoints_and_total_witness :
    (∀ x y, 0 ≤ gdUnit x y) ∧
    dijkstra gdUnit lineMap "A" "C" 5 = .ok ["A", "B", "C"] (some 2) ∧
    buildGraph gdUnit lineMap = some lineGraph ∧
    (keysA lineMap.neighbours).Nodup ∧
    (∀ p ∈ lineMap.neighbours, ∀ v ∈ p.2, (lookupA lineMap.neighbours v).isSome) ∧
    (lookupA lineMap.neighbours "A").isSome ∧
    memNb lineMap "A" "B" ∧ memNb lineMap "B" "C" ∧
    (["A", "B", "C"].head? = some "A" ∧ ["A", "B", "C"].getLast? = some "C" ∧
      ∃ g q, buildGraph gdUnit lineMap = some g ∧ (some (2 : ℤ) : Option ℤ) = some q ∧
        pathCost g ["A", "B", "C"] = some q) ∧
    (∃ fuel path c, dijkstra gdUnit lineMap "A" "C" fuel = .ok path c) :=
  ⟨gdUnit_nonneg, by decide, by decide, by decide, by decide, by decide,
    by decide, by decide,
    (dijkstra_route_endpoints_and_total gdUnit lineMap "A" "C" gdUnit_nonneg).1
      5 ["A", "B", "C"] (some 2) (by decide),
    (dijkstra_route_endpoints_and_total gdUnit lineMap "A" "C" gdUnit_nonneg).2
      lineGraph (by decide) (by decide) (closed_of_forall_mem (by decide)) (by decide)
      (Relation.ReflTransGen.tail (Relation.ReflTransGen.tail Relation.ReflTransGen.refl
        (show memNb lineMap "A" "B" by decide)) (show memNb lineMap "B" "C" by decide))⟩

end MapsModel
